import Mathlib

/-!
Verification development for the training/evaluation loop in `engine.py`
(DETR-style detection training driver).  The Python source is embedded
shallowly: dicts become ordered association lists, scalar loss tensors
become an IEEE-style value type (finite rational, nan, +inf, -inf),
side effects of a batch become an explicit event trace, and the two
drivers `train_one_epoch` / `evaluate` become pure functions from their
per-batch inputs to traces plus results.
-/

set_option linter.unusedVariables false

namespace Engine

/-- Scalar value held by a 0-dim loss tensor: a finite rational, `nan`,
`+inf` or `-inf`.  Finite arithmetic is exact (the loop never relies on
float rounding), while the non-finite values follow IEEE rules, which is
what `math.isfinite` distinguishes in the convergence guard. -/
inductive Flt where
  | num (q : ℚ)
  | nan
  | pinf
  | ninf
deriving DecidableEq

/-- IEEE-style addition on scalar values. -/
def Flt.add : Flt → Flt → Flt
  | .nan, _ => .nan
  | _, .nan => .nan
  | .pinf, .ninf => .nan
  | .ninf, .pinf => .nan
  | .pinf, _ => .pinf
  | _, .pinf => .pinf
  | .ninf, _ => .ninf
  | _, .ninf => .ninf
  | .num a, .num b => .num (a + b)

/-- IEEE-style multiplication on scalar values (`0 * inf = nan`). -/
def Flt.mul : Flt → Flt → Flt
  | .nan, _ => .nan
  | _, .nan => .nan
  | .num a, .num b => .num (a * b)
  | .pinf, .pinf => .pinf
  | .pinf, .ninf => .ninf
  | .ninf, .pinf => .ninf
  | .ninf, .ninf => .pinf
  | .pinf, .num b => if b = 0 then .nan else if 0 < b then .pinf else .ninf
  | .num a, .pinf => if a = 0 then .nan else if 0 < a then .pinf else .ninf
  | .ninf, .num b => if b = 0 then .nan else if 0 < b then .ninf else .pinf
  | .num a, .ninf => if a = 0 then .nan else if 0 < a then .ninf else .pinf

/-- `math.isfinite` on a scalar value. -/
def Flt.isFinite : Flt → Bool
  | .num _ => true
  | _ => false

/-- Division of a scalar total by a (meter) count, as in
`SmoothedValue.global_avg`.  Count 0 would raise in Python; the drivers
only evaluate it on meters with a positive count, so the value returned
for count 0 is irrelevant (it is guarded by an explicit error case). -/
def Flt.divNat : Flt → ℕ → Flt
  | _, 0 => .nan
  | .num q, n => .num (q / (n : ℚ))
  | .nan, _ => .nan
  | .pinf, _ => .pinf
  | .ninf, _ => .ninf

/-- Result of the Python builtin `sum` over scalar tensors: `sum` starts
from the plain integer 0, so an empty sum is the int 0 while a non-empty
sum is a 0-dim tensor. -/
inductive PySum where
  | intZero
  | tensor (v : Flt)
deriving DecidableEq

def pySum (l : List Flt) : PySum :=
  match l with
  | [] => .intZero
  | t :: ts => .tensor (ts.foldl Flt.add t)

/-- `.item()` on the result of a Python `sum`: fails on the int 0
(a plain int has no `.item` attribute). -/
def PySum.item : PySum → Option Flt
  | .intZero => none
  | .tensor v => some v

/-- Value seen where Python happily keeps the int 0 (e.g. pushing
`sum(...)` into a metric meter): the int 0 behaves as the scalar 0. -/
def PySum.val : PySum → Flt
  | .intZero => .num 0
  | .tensor v => v

/-- A Python dict with string keys, modelled as an ordered association
list.  Theorems add `Nodup` hypotheses on the key list where key
uniqueness of a real dict matters. -/
abbrev Dict (α : Type) := List (String × α)

/-- First-match lookup, `d[k]` / `d.get(k)`. -/
def lookup {α : Type} : Dict α → String → Option α
  | [], _ => none
  | (k, v) :: rest, key => if k = key then some v else lookup rest key

/-- `d.keys()`, in insertion order. -/
def keysOf {α : Type} (d : Dict α) : List String := d.map Prod.fst

/-- `k in d`. -/
def hasKey {α : Type} (d : Dict α) (k : String) : Bool := (lookup d k).isSome

/-- engine.py line 82:
`losses = sum(loss_dict[k] * weight_dict[k] for k in loss_dict.keys() if k in weight_dict)`. -/
def losses (loss_dict : Dict Flt) (weight_dict : Dict ℚ) : PySum :=
  pySum ((keysOf loss_dict).filterMap fun k =>
    match lookup loss_dict k, lookup weight_dict k with
    | some v, some w => some (v.mul (.num w))
    | _, _ => none)

/-- `util.misc.reduce_dict`, an out-of-repo-src collaborator.  Modelled
from the spec: it averages each value across distributed workers and
preserves the key set; in single-worker mode (the mode modelled here,
per the spec it "must be safe to call in single-worker mode as a no-op
reduction") it returns the dict unchanged. -/
def reduce_dict (d : Dict Flt) : Dict Flt := d

/-- engine.py lines 86-87 / 148-149: the reduced dict with every key
renamed by the fixed suffix `_unscaled`, values untouched. -/
def loss_dict_reduced_unscaled (d : Dict Flt) : Dict Flt :=
  d.map fun kv => (kv.1 ++ "_unscaled", kv.2)

/-- engine.py lines 88-89 / 146-147: the reduced dict restricted to the
weighted keys, each value multiplied by its weight. -/
def loss_dict_reduced_scaled (d : Dict Flt) (weight_dict : Dict ℚ) : Dict Flt :=
  d.filterMap fun kv => (lookup weight_dict kv.1).map fun w => (kv.1, kv.2.mul (.num w))

/-- engine.py line 90: `losses_reduced_scaled = sum(loss_dict_reduced_scaled.values())`. -/
def losses_reduced_scaled (d : Dict Flt) (weight_dict : Dict ℚ) : PySum :=
  pySum ((loss_dict_reduced_scaled d weight_dict).map Prod.snd)

/-- A Python exception raised by the loop body. -/
inductive PyErr where
  | itemOnInt
  | keyError (k : String)
  | unboundLocal (x : String)
  | zeroDivision
deriving DecidableEq

/-- Observable actions of one training batch, in program order:
the two diagnostic prints plus `sys.exit`, the optimizer/model mutations
(`zero_grad`, `backward`, gradient clipping, `step`) and the metric
logger updates (each carrying the keyword arguments passed). -/
inductive TrainEvent where
  | printLoss (v : Flt)
  | printDict (d : Dict Flt)
  | sysExit (code : ℕ)
  | zeroGrad
  | backward (v : Flt)
  | clipGradNorm (maxNorm : ℚ)
  | optimStep
  | metricUpdate (entries : Dict Flt)
  | syncMetrics
deriving DecidableEq

/-- How a training batch ends: a normal optimizer step, process
termination by the convergence guard, or an uncaught Python error. -/
inductive StepResult where
  | stepped
  | exitProcess
  | pyError (e : PyErr)
deriving DecidableEq

/-- One iteration of the loop body of `train_one_epoch`
(engine.py lines 79-107), for a given criterion output `loss_dict`,
criterion weights `weight_dict`, clipping bound `max_norm` and current
learning rate `lr`.  Model forward and data transfer are opaque here:
the batch is represented by the `loss_dict` the criterion produces for
it.  Returns the ordered event trace and how the iteration ended. -/
def trainBatch (loss_dict : Dict Flt) (weight_dict : Dict ℚ)
    (max_norm : ℚ) (lr : ℚ) : List TrainEvent × StepResult :=
  let ls := losses loss_dict weight_dict
  let ldr := reduce_dict loss_dict
  let unscaled := loss_dict_reduced_unscaled ldr
  let scaled := loss_dict_reduced_scaled ldr weight_dict
  match losses_reduced_scaled ldr weight_dict with
  | .intZero => ([], .pyError .itemOnInt)
  | .tensor v =>
    if v.isFinite then
      match ls with
      | .intZero => ([.zeroGrad], .pyError .itemOnInt)
      | .tensor lv =>
        let pre : List TrainEvent :=
          [.zeroGrad, .backward lv]
            ++ (if 0 < max_norm then [.clipGradNorm max_norm] else [])
            ++ [.optimStep, .metricUpdate (("loss", v) :: scaled ++ unscaled)]
        match lookup ldr "class_error" with
        | none => (pre, .pyError (.keyError "class_error"))
        | some ce =>
          (pre ++ [.metricUpdate [("class_error", ce)], .metricUpdate [("lr", .num lr)]],
           .stepped)
    else
      ([.printLoss v, .printDict ldr, .sysExit 1], .exitProcess)

/-- State of one `SmoothedValue` meter, modelled from the spec
(util.misc is outside src/): a running total and a count; update adds
the value and increments the count, `global_avg` is total / count. -/
structure Meter where
  total : Flt
  count : ℕ
deriving DecidableEq

def Meter.globalAvg (m : Meter) : Flt := m.total.divNat m.count

/-- The metric logger, modelled from the spec: named meters in creation
order; `update` appends a fresh meter (total starts at 0) on first use. -/
abbrev MLogger := List (String × Meter)

/-- Push one value into one meter (`meters[k].update(v)` with defaultdict
creation on a missing key, appended at the end like a Python dict). -/
def updOne (lg : MLogger) (k : String) (v : Flt) : MLogger :=
  match lg with
  | [] => [(k, ⟨Flt.add (.num 0) v, 1⟩)]
  | (k0, m) :: rest =>
    if k0 = k then (k0, ⟨m.total.add v, m.count + 1⟩) :: rest
    else (k0, m) :: updOne rest k v

/-- `metric_logger.update(**entries)`, processed left to right. -/
def updateMany (lg : MLogger) (entries : Dict Flt) : MLogger :=
  entries.foldl (fun l p => updOne l p.1 p.2) lg

/-- The keyword-argument dicts of the `metricUpdate` events of a trace. -/
def updatesOf (e : TrainEvent) : Option (Dict Flt) :=
  match e with
  | .metricUpdate es => some es
  | _ => none

/-- Apply the metric updates recorded in a batch trace to the logger. -/
def applyTrainEvents (lg : MLogger) (evs : List TrainEvent) : MLogger :=
  (evs.filterMap updatesOf).foldl updateMany lg

/-- `synchronize_between_processes`, modelled from the spec: all-reduce
of each meter's total and count; a no-op in single-worker mode. -/
def syncLogger (lg : MLogger) : MLogger := lg

/-- The dict comprehension on engine.py line 112 / 189:
every meter name mapped to its global average; a meter that was never
updated makes Python raise ZeroDivisionError inside `global_avg`. -/
def statsOf (lg : MLogger) : Except PyErr (Dict Flt) :=
  if lg.all (fun p => p.2.count ≠ 0) then
    .ok (lg.map fun p => (p.1, p.2.globalAvg))
  else .error .zeroDivision

/-- How a whole epoch ends. -/
inductive EpochOutcome where
  | finished (stats : Dict Flt)
  | exited
  | errored (e : PyErr)
deriving DecidableEq

/-- The batch loop of `train_one_epoch`: threads the logger through the
batches, stopping at a `sys.exit` (error value `none`) or an uncaught
exception (error value `some e`). -/
def runTrainBatches (weight_dict : Dict ℚ) (max_norm : ℚ) (lr : ℚ) :
    List (Dict Flt) → MLogger → List TrainEvent × Except (Option PyErr) MLogger
  | [], lg => ([], .ok lg)
  | b :: bs, lg =>
    let r := trainBatch b weight_dict max_norm lr
    match r.2 with
    | .stepped =>
      let rest := runTrainBatches weight_dict max_norm lr bs (applyTrainEvents lg r.1)
      (r.1 ++ rest.1, rest.2)
    | .exitProcess => (r.1, .error none)
    | .pyError e => (r.1, .error (some e))

/-- The two meters pre-registered by `add_meter` at the top of
`train_one_epoch` (lines 25-26), before any batch runs. -/
def trainLogger0 : MLogger := [("lr", ⟨.num 0, 0⟩), ("class_error", ⟨.num 0, 0⟩)]

/-- `train_one_epoch` (engine.py lines 19-112): run all batches, then
synchronize the aggregator across workers and return the per-meter
global averages. -/
def train_one_epoch (weight_dict : Dict ℚ) (max_norm : ℚ) (lr : ℚ)
    (batches : List (Dict Flt)) : List TrainEvent × EpochOutcome :=
  match runTrainBatches weight_dict max_norm lr batches trainLogger0 with
  | (evs, .ok lg) =>
    match statsOf (syncLogger lg) with
    | .ok st => (evs ++ [.syncMetrics], .finished st)
    | .error e => (evs ++ [.syncMetrics], .errored e)
  | (evs, .error none) => (evs, .exited)
  | (evs, .error (some e)) => (evs, .errored e)

/-- Which keys the `postprocessors` mapping of `evaluate` contains. -/
structure PostProc where
  hasBbox : Bool
  hasSegm : Bool
  hasPanoptic : Bool
deriving DecidableEq

/-- One evaluation batch, represented by the data the loop body actually
consumes: the per-target integer image ids (`target["image_id"].item()`,
non-negative for COCO-style data) and the criterion's loss dict. -/
structure EvalBatch where
  imageIds : List ℕ
  lossDict : Dict Flt
deriving DecidableEq

/-- Decimal digits of `n`, most significant first (empty for 0). -/
def decDigits (n : ℕ) : List ℕ := (Nat.digits 10 n).reverse

/-- Left-pad a digit list with zeros to width 12 (Python's format spec
012d: a minimum width, longer numbers are not truncated). -/
def pad12 (ds : List ℕ) : List ℕ := List.replicate (12 - ds.length) 0 ++ ds

def digitChar (d : ℕ) : Char := Char.ofNat (48 + d)

/-- engine.py line 168: the panoptic file name built by the f-string
format `image_id` padded with the 012d spec, followed by `.png`. -/
def panoFileName (id : ℕ) : String :=
  String.mk ((pad12 (decDigits id)).map digitChar) ++ ".png"

/-- One per-image panoptic result: an opaque payload index produced by
the panoptic postprocessor plus the two fields the driver writes into it
(engine.py lines 169-170), absent until written. -/
structure PanoRes where
  payload : ℕ
  image_id : Option ℕ
  file_name : Option String
deriving DecidableEq

/-- The annotation loop of engine.py lines 166-170: for each target
index `i`, write the image id and the formatted file name into
`res_pano[i]`.  Entries beyond the number of targets are untouched. -/
def annotatePano (ids : List ℕ) (rp : List PanoRes) : List PanoRes :=
  (List.zipWith (fun id r => PanoRes.mk r.payload (some id) (some (panoFileName id))) ids rp)
    ++ rp.drop ids.length

/-- Observable actions of one evaluation batch / the evaluation driver. -/
inductive EvalEvent where
  | panopticConstruct
  | metricUpdate (entries : Dict Flt)
  | bboxPost
  | segmPost
  | cocoUpdate (res : List (ℕ × ℕ))
  | panoPost
  | panoUpdate (l : List PanoRes)
  | syncMetrics
  | cocoSync
  | panoSync
  | cocoAccumulate
  | cocoSummarize
  | panoSummarize
deriving DecidableEq

/-- One iteration of the loop body of `evaluate` (engine.py lines
136-172).  The bbox/segm postprocessors and the detection accumulator
are opaque collaborators: per-image detection results are represented by
their positional index.  `target_sizes` is only assigned inside the segm
branch (line 158), so the panoptic branch raises UnboundLocalError when
segm is absent.  Returns the event trace and `none` on success. -/
def evalBatch (pp : PostProc) (weight_dict : Dict ℚ) (b : EvalBatch) :
    List EvalEvent × Option PyErr :=
  let ldr := reduce_dict b.lossDict
  let scaled := loss_dict_reduced_scaled ldr weight_dict
  let unscaled := loss_dict_reduced_unscaled ldr
  let u1 : Dict Flt := ("loss", (pySum (scaled.map Prod.snd)).val) :: scaled ++ unscaled
  match lookup ldr "class_error" with
  | none => ([.metricUpdate u1], some (.keyError "class_error"))
  | some ce =>
    let evs1 : List EvalEvent := [.metricUpdate u1, .metricUpdate [("class_error", ce)]]
    if pp.hasBbox then
      let n := b.imageIds.length
      let evs2 := evs1 ++ [.bboxPost] ++ (if pp.hasSegm then [.segmPost] else [])
      let evs3 := evs2 ++ [.cocoUpdate (b.imageIds.zip (List.range n))]
      if pp.hasPanoptic then
        if pp.hasSegm then
          let rp := (List.range n).map fun i => PanoRes.mk i none none
          (evs3 ++ [.panoPost, .panoUpdate (annotatePano b.imageIds rp)], none)
        else (evs3, some (.unboundLocal "target_sizes"))
      else (evs3, none)
    else (evs1, some (.keyError "bbox"))

/-- Apply the metric updates recorded in an eval batch trace. -/
def applyEvalEvents (lg : MLogger) (evs : List EvalEvent) : MLogger :=
  (evs.filterMap fun e =>
    match e with
    | .metricUpdate es => some es
    | _ => none).foldl updateMany lg

/-- The batch loop of `evaluate`: note that the metric updates a batch
performed before raising are still applied, as in Python. -/
def runEvalBatches (pp : PostProc) (weight_dict : Dict ℚ) :
    List EvalBatch → MLogger → List EvalEvent × Except PyErr MLogger
  | [], lg => ([], .ok lg)
  | b :: bs, lg =>
    let r := evalBatch pp weight_dict b
    match r.2 with
    | none =>
      let rest := runEvalBatches pp weight_dict bs (applyEvalEvents lg r.1)
      (r.1 ++ rest.1, rest.2)
    | some e => (r.1, .error e)

/-- A value of the stats mapping returned by `evaluate`: a meter's
global average, a COCO 12-value stat vector (per IoU type) or a panoptic
quality entry; the last two are opaque collaborator outputs. -/
inductive StatVal where
  | meterAvg (v : Flt)
  | cocoStats (iouType : String)
  | pq (part : String)
deriving DecidableEq

/-- The meter pre-registered at the top of `evaluate` (line 121). -/
def evalLogger0 : MLogger := [("class_error", ⟨.num 0, 0⟩)]

/-- `evaluate` (engine.py lines 115-199): construct the accumulators
(the panoptic one only when a panoptic postprocessor is present), run
all batches, synchronize and summarize, and assemble the stats mapping
(lines 189-198). -/
def evaluate (pp : PostProc) (weight_dict : Dict ℚ) (batches : List EvalBatch) :
    List EvalEvent × Except PyErr (Dict StatVal) :=
  let ev0 : List EvalEvent := if pp.hasPanoptic then [.panopticConstruct] else []
  match runEvalBatches pp weight_dict batches evalLogger0 with
  | (evs, .error e) => (ev0 ++ evs, .error e)
  | (evs, .ok lg) =>
    let tail : List EvalEvent :=
      [.syncMetrics, .cocoSync] ++ (if pp.hasPanoptic then [.panoSync] else [])
        ++ [.cocoAccumulate, .cocoSummarize]
        ++ (if pp.hasPanoptic then [.panoSummarize] else [])
    match statsOf (syncLogger lg) with
    | .error e => (ev0 ++ evs ++ tail, .error e)
    | .ok ms =>
      let stats : Dict StatVal :=
        ms.map (fun p => (p.1, StatVal.meterAvg p.2))
          ++ (if pp.hasBbox then [("coco_eval_bbox", StatVal.cocoStats "bbox")] else [])
          ++ (if pp.hasSegm then [("coco_eval_masks", StatVal.cocoStats "segm")] else [])
          ++ (if pp.hasPanoptic then
                [("PQ_all", StatVal.pq "All"), ("PQ_th", StatVal.pq "Things"),
                 ("PQ_st", StatVal.pq "Stuff")]
              else [])
      (ev0 ++ evs ++ tail, .ok stats)

/-- Squared L2 norm of a gradient vector (exact rational entries). -/
def sqNorm (g : List ℚ) : ℚ := (g.map fun x => x * x).sum

/-- Squared L2 norm over the reals, for the post-clip vector. -/
def sqNormR (g : List ℝ) : ℝ := (g.map fun x => x * x).sum

/-- `torch.nn.utils.clip_grad_norm_`, an external collaborator.
Modelled from the spec's gradient-clipping contract and torch's
documented algorithm: compute the global L2 norm, and if it exceeds
`c` rescale every gradient by `c / norm` (coefficient clamped at 1);
torch's 1e-6 denominator guard is dropped, which the spec's "up to
numerical tolerance" allows. -/
noncomputable def clipScale (g : List ℚ) (c : ℚ) : ℝ :=
  if Real.sqrt ((sqNorm g : ℚ) : ℝ) ≤ (c : ℝ) then 1
  else (c : ℝ) / Real.sqrt ((sqNorm g : ℚ) : ℝ)

noncomputable def clip_grad_norm (g : List ℚ) (c : ℚ) : List ℝ :=
  g.map fun x => (Rat.cast x : ℝ) * clipScale g c

/-- One coordinate of the defensive clamp in the plot helpers
(engine.py lines 224-228 / 270-274): a value at or above 1.0 is
overwritten with 0.99, then a value at or below 0.0 is overwritten with
0.99 (the second test sees the first write, so 0.99 survives it). -/
def clampCoord (c : ℚ) : ℚ :=
  if 1 ≤ c then 99 / 100 else if c ≤ 0 then 99 / 100 else c

def clampRow (row : List ℚ) : List ℚ := row.map clampCoord

/-- The `zip(coords, colors)` loop of `plot_image_with_labels` with
`threshold=True`: the 5-color palette limits the in-place clamp to the
first five box rows; remaining rows are untouched. -/
def labelRows : List (List ℚ) → ℕ → List (List ℚ)
  | rows, 0 => rows
  | [], _ => []
  | r :: rs, n + 1 => clampRow r :: labelRows rs n

/-- The box tensor of `targets[num_sample]` after a call to
`plot_image_with_labels` (engine.py lines 203-241): the clamp writes
through `gate_coord`, a view of the target's own `boxes` tensor. -/
def plotImageBoxes (boxes : List (List ℚ)) (threshold : Bool) : List (List ℚ) :=
  if threshold then labelRows boxes 5 else boxes

/-- First index attaining the maximum, `torch.max(logit, 0)[1]`. -/
def argmaxFirst (l : List ℚ) : ℕ :=
  match l with
  | [] => 0
  | x :: xs =>
    (xs.foldl
      (fun st y =>
        match st with
        | (best, bestIdx, i) =>
          if best < y then (y, i, i + 1) else (best, bestIdx, i + 1))
      ((x : ℚ), (0 : ℕ), (1 : ℕ))).2.1

/-- The `zip(logits, coords, colors)` loop of `plot_prediction` for one
image: a query among the first five whose predicted class is not 1 has
its box row clamped in place. -/
def predRows : List (List ℚ) → List (List ℚ) → ℕ → List (List ℚ)
  | _, coords, 0 => coords
  | [], coords, _ => coords
  | _ :: _, [], _ => []
  | lg :: lgs, c :: cs, n + 1 =>
    (if argmaxFirst lg ≠ 1 then clampRow c else c) :: predRows lgs cs n

/-- The `outputs["pred_boxes"]` rows of one image after a call to
`plot_prediction` (engine.py lines 244-287): the clamp writes through
`coord`, a view of the output's own box tensor. -/
def plotPredictionBoxes (logits : List (List ℚ)) (coords : List (List ℚ)) :
    List (List ℚ) :=
  predRows logits coords 5

/-- Sum of scalar values starting from 0, the accumulation a meter's
`total` performs over its updates. -/
def sumFlt (l : List Flt) : Flt := l.foldl Flt.add (.num 0)

/-- The loss value a batch logs: the reduced scaled sum (the int 0 when
the weighted intersection is empty). -/
def scaledSumVal (d : Dict Flt) (weight_dict : Dict ℚ) : Flt :=
  (losses_reduced_scaled (reduce_dict d) weight_dict).val

/-- A training batch the loop completes normally: the reduced scaled sum
is a finite tensor and the reduced dict has a class_error entry. -/
def goodTrainBatch (d : Dict Flt) (weight_dict : Dict ℚ) : Bool :=
  (match losses_reduced_scaled (reduce_dict d) weight_dict with
   | .tensor v => v.isFinite
   | .intZero => false)
    && hasKey (reduce_dict d) "class_error"

/-- An evaluation batch the loop completes normally (given bbox is
present): the reduced dict has a class_error entry. -/
def goodEvalBatch (b : EvalBatch) : Bool :=
  hasKey (reduce_dict b.lossDict) "class_error"

/-- The three metric-logger updates a successful training batch performs
(engine.py lines 105-107), written out as the spec lists them: total
loss with every scaled and unscaled reduced term, then the reduced
classification error, then the first parameter group's learning rate. -/
def trainUpdates (d : Dict Flt) (weight_dict : Dict ℚ) (lr : ℚ) : List (Dict Flt) :=
  [("loss", scaledSumVal d weight_dict)
     :: loss_dict_reduced_scaled (reduce_dict d) weight_dict
     ++ loss_dict_reduced_unscaled (reduce_dict d),
   [("class_error", (lookup (reduce_dict d) "class_error").getD .nan)],
   [("lr", .num lr)]]

/-- The two metric-logger updates an evaluation batch performs
(engine.py lines 150-153). -/
def evalUpdates (d : Dict Flt) (weight_dict : Dict ℚ) : List (Dict Flt) :=
  [("loss", scaledSumVal d weight_dict)
     :: loss_dict_reduced_scaled (reduce_dict d) weight_dict
     ++ loss_dict_reduced_unscaled (reduce_dict d),
   [("class_error", (lookup (reduce_dict d) "class_error").getD .nan)]]

/-- The stats keys that only the accumulators can contribute. -/
def reservedStatKeys : List String := ["PQ_all", "PQ_th", "PQ_st", "coco_eval_masks"]

/-- Value of a most-significant-first decimal digit list. -/
def msdVal (ds : List ℕ) : ℕ := ds.foldl (fun a d => 10 * a + d) 0

/-! ### Association-list lemmas -/

theorem lookup_nil {α : Type} (key : String) : lookup ([] : Dict α) key = none := rfl

theorem lookup_cons {α : Type} (k : String) (v : α) (rest : Dict α) (key : String) :
    lookup ((k, v) :: rest) key = if k = key then some v else lookup rest key := rfl

theorem lookup_isSome_of_mem {α : Type} {d : Dict α} {k : String}
    (h : k ∈ keysOf d) : (lookup d k).isSome := by
  induction d with
  | nil => simp [keysOf] at h
  | cons p rest ih =>
    obtain ⟨k0, v⟩ := p
    simp only [keysOf, List.map_cons, List.mem_cons] at h
    rw [lookup_cons]
    by_cases hk : k0 = k
    · simp [hk]
    · rcases h with h | h
      · exact absurd h.symm hk
      · simpa [hk] using ih h

theorem mem_of_lookup_isSome {α : Type} {d : Dict α} {k : String}
    (h : (lookup d k).isSome) : k ∈ keysOf d := by
  induction d with
  | nil => simp [lookup] at h
  | cons p rest ih =>
    obtain ⟨k0, v⟩ := p
    rw [lookup_cons] at h
    simp only [keysOf, List.map_cons, List.mem_cons]
    by_cases hk : k0 = k
    · exact Or.inl hk.symm
    · simp only [hk, if_false] at h
      exact Or.inr (ih h)

theorem hasKey_iff_mem {α : Type} {d : Dict α} {k : String} :
    hasKey d k = true ↔ k ∈ keysOf d :=
  ⟨fun h => mem_of_lookup_isSome h, fun h => lookup_isSome_of_mem h⟩

/-- The key list of the scaled mapping is the key list of the input
filtered to the weighted keys, in order. -/
theorem keysOf_scaled (d : Dict Flt) (wd : Dict ℚ) :
    keysOf (loss_dict_reduced_scaled d wd) = (keysOf d).filter fun k => hasKey wd k := by
  induction d with
  | nil => rfl
  | cons p rest ih =>
    obtain ⟨k, v⟩ := p
    simp only [loss_dict_reduced_scaled, keysOf, List.filterMap_cons, List.map_cons,
      List.filter_cons] at ih ⊢
    cases hw : lookup wd k with
    | none => simpa [hasKey, hw] using ih
    | some w => simpa [hasKey, hw] using ih

/-- Membership in the scaled mapping's keys is the intersection of the
two key sets. -/
theorem mem_keysOf_scaled (d : Dict Flt) (wd : Dict ℚ) (k : String) :
    k ∈ keysOf (loss_dict_reduced_scaled d wd) ↔ k ∈ keysOf d ∧ k ∈ keysOf wd := by
  rw [keysOf_scaled, List.mem_filter, hasKey_iff_mem]

/-- Values of the scaled mapping, entrywise. -/
theorem scaled_values (d : Dict Flt) (wd : Dict ℚ) :
    (loss_dict_reduced_scaled d wd).map Prod.snd
      = d.filterMap fun kv => (lookup wd kv.1).map fun w => Flt.mul kv.2 (Flt.num w) := by
  rw [loss_dict_reduced_scaled, List.map_filterMap]
  congr 1
  funext kv
  cases lookup wd kv.1 <;> rfl

/-- Key list of the unscaled mapping: the input keys, suffixed. -/
theorem keysOf_unscaled (d : Dict Flt) :
    keysOf (loss_dict_reduced_unscaled d) = (keysOf d).map fun k => k ++ "_unscaled" := by
  simp [loss_dict_reduced_unscaled, keysOf, List.map_map, Function.comp]

/-- Values of the unscaled mapping: unchanged, in order. -/
theorem values_unscaled (d : Dict Flt) :
    (loss_dict_reduced_unscaled d).map Prod.snd = d.map Prod.snd := by
  simp [loss_dict_reduced_unscaled, List.map_map, Function.comp]

/-- With duplicate-free keys, the generator of line 82 (iterating keys
and indexing both dicts) produces exactly one weighted term per entry of
the loss dict whose key is weighted. -/
theorem losses_terms_entrywise (ld : Dict Flt) (wd : Dict ℚ)
    (h : (keysOf ld).Nodup) :
    ((keysOf ld).filterMap fun k =>
        match lookup ld k, lookup wd k with
        | some v, some w => some (Flt.mul v (Flt.num w))
        | _, _ => none)
      = ld.filterMap fun kv => (lookup wd kv.1).map fun w => Flt.mul kv.2 (Flt.num w) := by
  induction ld with
  | nil => rfl
  | cons p rest ih =>
    obtain ⟨k, v⟩ := p
    simp only [keysOf, List.map_cons, List.nodup_cons] at h
    obtain ⟨hk, hrest⟩ := h
    rw [keysOf] at ih
    simp only [keysOf, List.map_cons, List.filterMap_cons]
    have hself : lookup ((k, v) :: rest) k = some v := by simp [lookup_cons]
    have htail : ∀ a ∈ rest.map Prod.fst,
        (match lookup ((k, v) :: rest) a, lookup wd a with
          | some v0, some w => some (Flt.mul v0 (Flt.num w))
          | _, _ => none)
          = (match lookup rest a, lookup wd a with
            | some v0, some w => some (Flt.mul v0 (Flt.num w))
            | _, _ => none) := by
      intro a ha
      have hne : k ≠ a := fun he => hk (he ▸ ha)
      rw [lookup_cons, if_neg hne]
    rw [List.filterMap_congr htail, ih hrest, hself]
    cases hw : lookup wd k <;> simp

/-- `losses` as an entrywise weighted sum (duplicate-free keys). -/
theorem losses_eq_entrywise (ld : Dict Flt) (wd : Dict ℚ)
    (h : (keysOf ld).Nodup) :
    losses ld wd
      = pySum (ld.filterMap fun kv => (lookup wd kv.1).map fun w => Flt.mul kv.2 (Flt.num w)) := by
  rw [losses, losses_terms_entrywise ld wd h]

/-- The unreduced weighted sum and the reduced scaled sum of line 90 are
the same sum in single-worker mode (duplicate-free keys). -/
theorem losses_eq_losses_reduced_scaled (ld : Dict Flt) (wd : Dict ℚ)
    (h : (keysOf ld).Nodup) :
    losses ld wd = losses_reduced_scaled (reduce_dict ld) wd := by
  rw [losses_eq_entrywise ld wd h, losses_reduced_scaled, reduce_dict, scaled_values]

/-- Over a key list on which the loss dict is total, the generator of
line 82 is: filter to the weighted keys, then map to the product. -/
theorem filterMap_match_eq_filter_map (ld : Dict Flt) (wd : Dict ℚ) :
    ∀ l : List String, (∀ k ∈ l, (lookup ld k).isSome) →
      (l.filterMap fun k =>
          match lookup ld k, lookup wd k with
          | some v, some w => some (Flt.mul v (Flt.num w))
          | _, _ => none)
        = (l.filter fun k => hasKey wd k).map fun k =>
            Flt.mul ((lookup ld k).getD .nan) (.num ((lookup wd k).getD 0)) := by
  intro l hl
  induction l with
  | nil => rfl
  | cons a t ih =>
    have ha : (lookup ld a).isSome := hl a (List.mem_cons_self a t)
    obtain ⟨v, hv⟩ := Option.isSome_iff_exists.mp ha
    rw [List.filterMap_cons, List.filter_cons]
    cases hw : lookup wd a with
    | none =>
      have hK : hasKey wd a = false := by simp [hasKey, hw]
      simp only [hv, hw, hK, Bool.false_eq_true, if_false]
      exact ih fun k hk => hl k (List.mem_cons_of_mem a hk)
    | some w =>
      have hK : hasKey wd a = true := by simp [hasKey, hw]
      simp only [hv, hw, hK, if_true, List.map_cons, Option.getD_some]
      rw [ih fun k hk => hl k (List.mem_cons_of_mem a hk)]

/-! ### C1 -/

/-- C1: in `train_one_epoch`, for every batch the backpropagated loss
`losses` is the sum, over every key present in both the loss dict and
the weight dict, of `loss_dict[k] * weight_dict[k]`; entries whose key
is not weighted never contribute (dropping them leaves `losses`
unchanged). -/
theorem c1_weighted_loss_sum (ld : Dict Flt) (wd : Dict ℚ)
    (h : (keysOf ld).Nodup) :
    losses ld wd
      = pySum (((keysOf ld).filter fun k => hasKey wd k).map fun k =>
          Flt.mul ((lookup ld k).getD .nan) (.num ((lookup wd k).getD 0)))
    ∧ losses (ld.filter fun kv => hasKey wd kv.1) wd = losses ld wd := by
  constructor
  · rw [losses, filterMap_match_eq_filter_map ld wd (keysOf ld)
      (fun k hk => lookup_isSome_of_mem hk)]
  · have hkeys : keysOf (ld.filter fun kv => hasKey wd kv.1)
        = (keysOf ld).filter fun k => hasKey wd k := by
      rw [keysOf, keysOf, List.filter_map]
      rfl
    have hnd : (keysOf (ld.filter fun kv => hasKey wd kv.1)).Nodup := by
      rw [hkeys]; exact h.filter _
    rw [losses_eq_entrywise _ wd hnd, losses_eq_entrywise ld wd h]
    congr 1
    rw [List.filterMap_filter]
    apply List.filterMap_congr
    intro kv _
    by_cases hw : hasKey wd kv.1
    · simp [hw]
    · have : lookup wd kv.1 = none := by
        rcases ho : lookup wd kv.1 with _ | w
        · rfl
        · exact absurd (by simp [hasKey, ho]) hw
      simp [hw, this]

/-- Witness for C1 at a concrete loss/weight dict: the unweighted entry
`b` does not contribute and the sum is `3 * 2 = 6`. -/
theorem c1_weighted_loss_sum_witness :
    ((keysOf [("a", Flt.num 3), ("b", Flt.num 5)]).Nodup)
      ∧ losses ([("a", Flt.num 3), ("b", Flt.num 5)].filter
            fun kv => hasKey [("a", (2 : ℚ))] kv.1) [("a", (2 : ℚ))]
          = losses [("a", Flt.num 3), ("b", Flt.num 5)] [("a", (2 : ℚ))] :=
  ⟨by decide, (c1_weighted_loss_sum [("a", Flt.num 3), ("b", Flt.num 5)]
      [("a", (2 : ℚ))] (by decide)).2⟩

/-! ### C2 -/

/-- C2: whenever the backward-eligible weighted loss of a batch is a
non-finite scalar, the batch prints the loss value and the reduced loss
dict and exits the process, with no gradient zeroing, no backward pass,
no clipping and no optimizer step; whenever it is finite, no exit
happens. -/
theorem c2_nonfinite_loss_aborts (ld : Dict Flt) (wd : Dict ℚ)
    (max_norm lr : ℚ) (v : Flt)
    (hnd : (keysOf ld).Nodup) (hv : losses ld wd = .tensor v) :
    (v.isFinite = false →
      trainBatch ld wd max_norm lr
        = ([.printLoss v, .printDict (reduce_dict ld), .sysExit 1], .exitProcess))
    ∧ (v.isFinite = true →
      TrainEvent.sysExit 1 ∉ (trainBatch ld wd max_norm lr).1
        ∧ (trainBatch ld wd max_norm lr).2 ≠ .exitProcess) := by
  have hs : losses_reduced_scaled (reduce_dict ld) wd = .tensor v :=
    (losses_eq_losses_reduced_scaled ld wd hnd) ▸ hv
  constructor
  · intro hfin
    simp only [trainBatch, hs, hfin, Bool.false_eq_true, if_false]
  · intro hfin
    simp only [trainBatch, hs, hv, hfin, if_true]
    rcases hce : lookup (reduce_dict ld) "class_error" with _ | ce <;>
      by_cases hmn : 0 < max_norm <;>
        simp [hmn, hce]

/-- Witness for C2: a `+inf` weighted loss makes the batch print and
exit with no optimizer activity. -/
theorem c2_nonfinite_loss_aborts_witness :
    trainBatch [("a", Flt.pinf)] [("a", (1 : ℚ))] 0 1
      = ([.printLoss Flt.pinf, .printDict [("a", Flt.pinf)], .sysExit 1], .exitProcess) :=
  (c2_nonfinite_loss_aborts [("a", Flt.pinf)] [("a", (1 : ℚ))] 0 1 Flt.pinf
    (by decide) (by decide)).1 (by decide)

/-! ### C10 -/

/-- C10: the loop body implicitly requires a non-empty intersection of
loss-dict and weight-dict keys.  With an empty intersection both
weighted sums are the plain int 0 and the batch raises on `.item()`
before any optimizer activity (its trace is empty); with a non-empty
intersection both sums are tensors, so `.item()` and `.backward()` are
well-defined. -/
theorem c10_nonempty_intersection_required (ld : Dict Flt) (wd : Dict ℚ)
    (max_norm lr : ℚ) :
    (((keysOf ld).filter fun k => hasKey wd k) = [] →
      losses ld wd = .intZero
        ∧ losses_reduced_scaled (reduce_dict ld) wd = .intZero
        ∧ trainBatch ld wd max_norm lr = ([], .pyError .itemOnInt))
    ∧ (((keysOf ld).filter fun k => hasKey wd k) ≠ [] →
      (∃ v, losses ld wd = .tensor v)
        ∧ ((losses_reduced_scaled (reduce_dict ld) wd).item).isSome = true) := by
  constructor
  · intro hempty
    have hterms : ((keysOf ld).filterMap fun k =>
        match lookup ld k, lookup wd k with
        | some v, some w => some (Flt.mul v (Flt.num w))
        | _, _ => none) = [] := by
      rw [filterMap_match_eq_filter_map ld wd (keysOf ld)
        (fun k hk => lookup_isSome_of_mem hk), hempty]
      rfl
    have hscaled : loss_dict_reduced_scaled (reduce_dict ld) wd = [] := by
      have := keysOf_scaled (reduce_dict ld) wd
      rw [reduce_dict] at this ⊢
      rw [hempty] at this
      exact List.map_eq_nil_iff.mp this
    have h1 : losses ld wd = .intZero := by rw [losses, hterms]; rfl
    have h2 : losses_reduced_scaled (reduce_dict ld) wd = .intZero := by
      rw [losses_reduced_scaled, hscaled]; rfl
    refine ⟨h1, h2, ?_⟩
    simp only [trainBatch, h2]
  · intro hne
    obtain ⟨k, hk⟩ := List.exists_mem_of_ne_nil _ hne
    have hkl : k ∈ keysOf ld := (List.mem_filter.mp hk).1
    have hkw : hasKey wd k = true := (List.mem_filter.mp hk).2
    obtain ⟨v, hv⟩ := Option.isSome_iff_exists.mp (lookup_isSome_of_mem hkl)
    obtain ⟨w, hw⟩ := Option.isSome_iff_exists.mp hkw
    constructor
    · have hmem : Flt.mul v (Flt.num w) ∈ ((keysOf ld).filterMap fun k0 =>
          match lookup ld k0, lookup wd k0 with
          | some v0, some w0 => some (Flt.mul v0 (Flt.num w0))
          | _, _ => none) := by
        rw [List.mem_filterMap]
        exact ⟨k, hkl, by rw [hv, hw]⟩
      rcases hterms : ((keysOf ld).filterMap fun k0 =>
          match lookup ld k0, lookup wd k0 with
          | some v0, some w0 => some (Flt.mul v0 (Flt.num w0))
          | _, _ => none) with _ | ⟨t, ts⟩
      · rw [hterms] at hmem; simp at hmem
      · exact ⟨ts.foldl Flt.add t, by rw [losses, hterms]; rfl⟩
    · have hkmem : k ∈ keysOf (loss_dict_reduced_scaled (reduce_dict ld) wd) := by
        rw [mem_keysOf_scaled]
        exact ⟨hkl, hasKey_iff_mem.mp hkw⟩
      rcases hsc : loss_dict_reduced_scaled (reduce_dict ld) wd with _ | ⟨p, ps⟩
      · rw [hsc] at hkmem; simp [keysOf] at hkmem
      · rw [losses_reduced_scaled, hsc]
        rfl

/-- Witness for C10: a loss dict disjoint from the weight dict makes the
first batch fail on `.item()` with an empty trace. -/
theorem c10_nonempty_intersection_required_witness :
    trainBatch [("a", Flt.num 1)] [] 0 1 = ([], .pyError .itemOnInt) :=
  ((c10_nonempty_intersection_required [("a", Flt.num 1)] [] 0 1).1 (by decide)).2.2

/-- In a dict with duplicate-free keys, every entry is found by lookup. -/
theorem lookup_eq_of_mem {α : Type} {d : Dict α} (hnd : (keysOf d).Nodup)
    {kv : String × α} (h : kv ∈ d) : lookup d kv.1 = some kv.2 := by
  induction d with
  | nil => simp at h
  | cons p rest ih =>
    obtain ⟨k0, v0⟩ := p
    simp only [keysOf, List.map_cons, List.nodup_cons] at hnd
    rcases List.mem_cons.mp h with rfl | h0
    · simp [lookup_cons]
    · have hmem : kv.1 ∈ keysOf rest := List.mem_map_of_mem Prod.fst h0
      have hne : k0 ≠ kv.1 := fun he => hnd.1 (he ▸ hmem)
      rw [lookup_cons, if_neg hne]
      exact ih hnd.2 h0

/-! ### C3 -/

/-- C3: the reduced-scaled mapping built by both drivers has key set
exactly the intersection of the loss-dict keys and the weight-dict keys
(each value being the reduced value times its weight), and the
reduced-unscaled mapping has key set exactly the loss-dict keys renamed
with the fixed `_unscaled` suffix, positionally one-to-one with
unchanged values. -/
theorem c3_reduced_scaled_unscaled_mappings (ld : Dict Flt) (wd : Dict ℚ)
    (hnd : (keysOf ld).Nodup) :
    (keysOf (loss_dict_reduced_scaled (reduce_dict ld) wd)
        = (keysOf (reduce_dict ld)).filter fun k => hasKey wd k)
    ∧ (∀ k, k ∈ keysOf (loss_dict_reduced_scaled (reduce_dict ld) wd)
        ↔ k ∈ keysOf ld ∧ k ∈ keysOf wd)
    ∧ (∀ p ∈ loss_dict_reduced_scaled (reduce_dict ld) wd,
        ∃ v w, lookup (reduce_dict ld) p.1 = some v ∧ lookup wd p.1 = some w
          ∧ p.2 = Flt.mul v (Flt.num w))
    ∧ keysOf (loss_dict_reduced_unscaled (reduce_dict ld))
        = (keysOf (reduce_dict ld)).map (fun k => k ++ "_unscaled")
    ∧ (loss_dict_reduced_unscaled (reduce_dict ld)).map Prod.snd
        = (reduce_dict ld).map Prod.snd := by
  refine ⟨keysOf_scaled _ wd, fun k => mem_keysOf_scaled _ wd k, ?_,
    keysOf_unscaled _, values_unscaled _⟩
  intro p hp
  rw [loss_dict_reduced_scaled] at hp
  obtain ⟨kv, hkv, hfkv⟩ := List.mem_filterMap.mp hp
  rcases hw : lookup wd kv.1 with _ | w
  · rw [hw] at hfkv
    exact Option.noConfusion hfkv
  · rw [hw, Option.map_some'] at hfkv
    have heq : (kv.1, Flt.mul kv.2 (Flt.num w)) = p := Option.some_inj.mp hfkv
    refine ⟨kv.2, w, ?_, ?_, ?_⟩
    · rw [← heq]
      exact lookup_eq_of_mem hnd hkv
    · rw [← heq]
      exact hw
    · rw [← heq]

/-- Witness for C3 at a concrete loss/weight dict. -/
theorem c3_reduced_scaled_unscaled_mappings_witness :
    keysOf (loss_dict_reduced_scaled
        (reduce_dict [("a", Flt.num 2), ("b", Flt.num 7)]) [("a", (3 : ℚ))])
      = (keysOf (reduce_dict [("a", Flt.num 2), ("b", Flt.num 7)])).filter
          fun k => hasKey [("a", (3 : ℚ))] k :=
  (c3_reduced_scaled_unscaled_mappings [("a", Flt.num 2), ("b", Flt.num 7)]
    [("a", (3 : ℚ))] (by decide)).1

/-! ### C6 -/

theorem sqNorm_nonneg (g : List ℚ) : 0 ≤ sqNorm g := by
  rw [sqNorm]
  induction g with
  | nil => simp
  | cons x t ih =>
    rw [List.map_cons, List.sum_cons]
    exact add_nonneg (mul_self_nonneg x) ih

theorem sqNormR_map_mul (g : List ℚ) (s : ℝ) :
    sqNormR (g.map fun x => (Rat.cast x : ℝ) * s) = ((sqNorm g : ℚ) : ℝ) * s ^ 2 := by
  induction g with
  | nil => simp [sqNormR, sqNorm]
  | cons x t ih =>
    simp only [sqNormR, sqNorm, List.map_cons, List.sum_cons] at ih ⊢
    push_cast
    push_cast at ih
    rw [ih]
    ring

/-- The post-clip squared norm is at most the square of the bound. -/
theorem clipped_sqNorm_le (g : List ℚ) (c : ℚ) (hc : 0 < c) :
    sqNormR (clip_grad_norm g c) ≤ ((c : ℚ) : ℝ) ^ 2 := by
  have hS : (0 : ℝ) ≤ ((sqNorm g : ℚ) : ℝ) := by
    exact_mod_cast sqNorm_nonneg g
  rw [clip_grad_norm, sqNormR_map_mul, clipScale]
  by_cases h : Real.sqrt ((sqNorm g : ℚ) : ℝ) ≤ ((c : ℚ) : ℝ)
  · rw [if_pos h]
    have h2 : ((sqNorm g : ℚ) : ℝ) = Real.sqrt ((sqNorm g : ℚ) : ℝ) ^ 2 :=
      (Real.sq_sqrt hS).symm
    rw [one_pow, mul_one, h2]
    exact pow_le_pow_left₀ (Real.sqrt_nonneg _) h 2
  · rw [if_neg h]
    push_neg at h
    have hcR : (0 : ℝ) < ((c : ℚ) : ℝ) := by exact_mod_cast hc
    have hsq : (0 : ℝ) < Real.sqrt ((sqNorm g : ℚ) : ℝ) := lt_trans hcR h
    have hSpos : (0 : ℝ) < ((sqNorm g : ℚ) : ℝ) := by
      by_contra hle
      push_neg at hle
      have : ((sqNorm g : ℚ) : ℝ) = 0 := le_antisymm hle hS
      rw [this, Real.sqrt_zero] at hsq
      exact lt_irrefl 0 hsq
    rw [div_pow, Real.sq_sqrt hS, mul_div_assoc']
    rw [mul_comm, mul_div_assoc, div_self (ne_of_gt hSpos), mul_one]

/-- C6: gradient clipping runs exactly when `max_norm > 0` — with
`max_norm = 0` no batch ever records a clip call, with `max_norm > 0`
every batch that reaches the optimizer step records one — and the
modelled clip keeps the global L2 norm at most `max_norm`. -/
theorem c6_gradient_clipping :
    (∀ (ld : Dict Flt) (wd : Dict ℚ) (lr c : ℚ),
      TrainEvent.clipGradNorm c ∉ (trainBatch ld wd 0 lr).1)
    ∧ (∀ (ld : Dict Flt) (wd : Dict ℚ) (lr mn : ℚ), 0 < mn →
        (trainBatch ld wd mn lr).2 = .stepped →
        TrainEvent.clipGradNorm mn ∈ (trainBatch ld wd mn lr).1)
    ∧ (∀ (g : List ℚ) (c : ℚ), 0 < c →
        sqNormR (clip_grad_norm g c) ≤ ((c : ℚ) : ℝ) ^ 2) := by
  refine ⟨?_, ?_, fun g c hc => clipped_sqNorm_le g c hc⟩
  · intro ld wd lr c
    simp only [trainBatch]
    rcases losses_reduced_scaled (reduce_dict ld) wd with _ | v
    · simp
    · by_cases hf : v.isFinite
      · simp only [hf, if_true]
        rcases losses ld wd with _ | lv
        · simp
        · rcases lookup (reduce_dict ld) "class_error" with _ | ce <;>
            simp
      · simp only [hf, Bool.false_eq_true, if_false]
        simp
  · intro ld wd lr mn hmn hstep
    rcases hscr : losses_reduced_scaled (reduce_dict ld) wd with _ | v
    · simp [trainBatch, hscr] at hstep
    · by_cases hf : v.isFinite
      · rcases hls : losses ld wd with _ | lv
        · simp [trainBatch, hscr, hls, hf] at hstep
        · rcases hce : lookup (reduce_dict ld) "class_error" with _ | ce
          · simp [trainBatch, hscr, hls, hf, hce] at hstep
          · simp [trainBatch, hscr, hls, hf, hce, hmn]
      · simp [trainBatch, hscr, hf] at hstep

/-- Witness for C6: with `max_norm = 1` a completing batch records the
clip call, and the clipped 3-4-5 gradient has squared norm at most 1. -/
theorem c6_gradient_clipping_witness :
    (0 < (1 : ℚ))
      ∧ TrainEvent.clipGradNorm 1
          ∈ (trainBatch [("loss_ce", Flt.num 1), ("class_error", Flt.num 0)]
              [("loss_ce", (1 : ℚ))] 1 1).1
      ∧ sqNormR (clip_grad_norm [3, 4] 1) ≤ (((1 : ℚ) : ℝ)) ^ 2 :=
  ⟨by norm_num,
   c6_gradient_clipping.2.1 [("loss_ce", Flt.num 1), ("class_error", Flt.num 0)]
     [("loss_ce", (1 : ℚ))] 1 1 (by norm_num) (by decide),
   c6_gradient_clipping.2.2 [3, 4] 1 (by norm_num)⟩

/-! ### C7 -/

theorem msdVal_replicate_zero (k : ℕ) (ds : List ℕ) :
    msdVal (List.replicate k 0 ++ ds) = msdVal ds := by
  induction k with
  | zero => rfl
  | succ n ih =>
    rw [List.replicate_succ, List.cons_append]
    exact ih

theorem foldl_reverse_ofDigits (l : List ℕ) (a : ℕ) :
    l.reverse.foldl (fun acc d => 10 * acc + d) a
      = a * 10 ^ l.length + Nat.ofDigits 10 l := by
  induction l generalizing a with
  | nil => simp
  | cons d t ih =>
    rw [List.reverse_cons, List.foldl_append, ih, Nat.ofDigits_cons, List.length_cons]
    simp only [List.foldl_cons, List.foldl_nil]
    ring

theorem msdVal_decDigits (n : ℕ) : msdVal (decDigits n) = n := by
  rw [msdVal, decDigits, foldl_reverse_ofDigits]
  simp [Nat.ofDigits_digits]

theorem decDigits_length_le (n : ℕ) (h : n < 10 ^ 12) : (decDigits n).length ≤ 12 := by
  rw [decDigits, List.length_reverse]
  rcases Nat.eq_zero_or_pos n with rfl | hn
  · simp
  · have h1 : 10 ^ (Nat.digits 10 n).length ≤ 10 * n :=
      Nat.base_pow_length_digits_le 10 n (by norm_num) (Nat.pos_iff_ne_zero.mp hn)
    have h2 : 10 * n < 10 ^ 13 := by
      calc 10 * n < 10 * 10 ^ 12 := by omega
      _ = 10 ^ 13 := by norm_num
    have h3 : 10 ^ (Nat.digits 10 n).length < 10 ^ 13 := lt_of_le_of_lt h1 h2
    have h4 := (Nat.pow_lt_pow_iff_right (by norm_num : 1 < 10)).mp h3
    omega

/-- C7: the panoptic file name is the decimal image id zero-padded to
exactly 12 digits followed by `.png` (for every id below 10^12, the
padded digit field has length 12 and decimal value equal to the id);
for image id 17 the file name is exactly `000000000017.png`. -/
theorem c7_panoptic_filename :
    (∀ id : ℕ, id < 10 ^ 12 →
      (pad12 (decDigits id)).length = 12 ∧ msdVal (pad12 (decDigits id)) = id)
    ∧ panoFileName 17 = "000000000017.png" := by
  constructor
  · intro id hid
    have hlen := decDigits_length_le id hid
    constructor
    · rw [pad12, List.length_append, List.length_replicate]
      omega
    · rw [pad12, msdVal_replicate_zero, msdVal_decDigits]
  · have h1 : Nat.digits 10 1 = [1] := Nat.digits_of_lt 10 1 (by norm_num) (by norm_num)
    have h17 : Nat.digits 10 17 = [7, 1] := by
      rw [Nat.digits_def' (by norm_num : (1 : ℕ) < 10) (by norm_num : 0 < 17)]
      norm_num [h1]
    have hdec : decDigits 17 = [1, 7] := by rw [decDigits, h17]; rfl
    rw [panoFileName, hdec]
    decide

/-- Witness for C7 at image id 17. -/
theorem c7_panoptic_filename_witness :
    17 < 10 ^ 12 ∧ msdVal (pad12 (decDigits 17)) = 17 :=
  ⟨by norm_num, (c7_panoptic_filename.1 17 (by norm_num)).2⟩

/-! ### C9 -/

theorem clampRow_id {row : List ℚ} (h : ∀ c ∈ row, 0 < c ∧ c < 1) :
    clampRow row = row := by
  rw [clampRow]
  have he : ∀ c ∈ row, clampCoord c = c := by
    intro c hc
    obtain ⟨h0, h1⟩ := h c hc
    rw [clampCoord, if_neg (by linarith), if_neg (by linarith)]
  rw [List.map_congr_left he]
  simp

theorem labelRows_id {rows : List (List ℚ)}
    (h : ∀ row ∈ rows, clampRow row = row) : ∀ n, labelRows rows n = rows := by
  induction rows with
  | nil => intro n; cases n <;> rfl
  | cons r rs ih =>
    intro n
    cases n with
    | zero => rfl
    | succ m =>
      rw [labelRows, h r (List.mem_cons_self r rs),
        ih (fun row hr => h row (List.mem_cons_of_mem r hr)) m]

theorem predRows_id {coords : List (List ℚ)}
    (h : ∀ row ∈ coords, clampRow row = row) :
    ∀ (logits : List (List ℚ)) (n : ℕ), predRows logits coords n = coords := by
  induction coords with
  | nil =>
    intro logits n
    cases logits with
    | nil => cases n <;> rfl
    | cons lg lgs => cases n <;> rfl
  | cons c cs ih =>
    intro logits n
    cases logits with
    | nil => cases n <;> rfl
    | cons lg lgs =>
      cases n with
      | zero => rfl
      | succ m =>
        rw [predRows]
        rw [ih (fun row hr => h row (List.mem_cons_of_mem c hr)) lgs m]
        by_cases ha : argmaxFirst lg ≠ 1
        · rw [if_pos ha, h c (List.mem_cons_self c cs)]
        · rw [if_neg ha]

/-- Counterexample to C9 as stated: with the default `threshold=True`,
`plot_image_with_labels` overwrites an out-of-range coordinate of the
target's own box tensor with 0.99, and `plot_prediction` does the same
to the output's box tensor, so the tensors do not hold the same values
after the call. -/
theorem c9_counterexample :
    plotImageBoxes [[2, 0, 0, 0, 0, 0, 0, 0]] true ≠ [[2, 0, 0, 0, 0, 0, 0, 0]]
      ∧ plotPredictionBoxes [[5, 0]] [[2, 0, 0, 0, 0, 0, 0, 0]]
          ≠ [[2, 0, 0, 0, 0, 0, 0, 0]] := by
  constructor
  · norm_num [plotImageBoxes, labelRows, clampRow, clampCoord]
  · norm_num [plotPredictionBoxes, predRows, argmaxFirst, clampRow, clampCoord]

/-- C9 amended: the plot helpers leave the targets' and outputs' box
tensors unchanged provided every coordinate of the processed rows lies
strictly inside (0, 1); a coordinate at or outside those bounds is
clamped to 0.99 in place.  (`plot_image_with_labels` with
`threshold=False` never writes.) -/
theorem c9_plot_helpers_boxes_preserved :
    (∀ boxes : List (List ℚ),
      (∀ row ∈ boxes, ∀ c ∈ row, 0 < c ∧ c < 1) → plotImageBoxes boxes true = boxes)
    ∧ (∀ boxes : List (List ℚ), plotImageBoxes boxes false = boxes)
    ∧ (∀ (logits : List (List ℚ)) (coords : List (List ℚ)),
        (∀ row ∈ coords, ∀ c ∈ row, 0 < c ∧ c < 1) →
        plotPredictionBoxes logits coords = coords) := by
  refine ⟨?_, fun boxes => rfl, ?_⟩
  · intro boxes h
    rw [plotImageBoxes, if_pos rfl]
    exact labelRows_id (fun row hr => clampRow_id (h row hr)) 5
  · intro logits coords h
    rw [plotPredictionBoxes]
    exact predRows_id (fun row hr => clampRow_id (h row hr)) logits 5

/-- Witness for the amended C9 on an in-range box. -/
theorem c9_plot_helpers_boxes_preserved_witness :
    plotImageBoxes [[1/2, 1/4, 1/4, 3/4, 3/4, 3/4, 3/4, 1/4]] true
      = [[1/2, 1/4, 1/4, 3/4, 3/4, 3/4, 3/4, 1/4]] :=
  c9_plot_helpers_boxes_preserved.1 [[1/2, 1/4, 1/4, 3/4, 3/4, 3/4, 3/4, 1/4]]
    (by norm_num [List.forall_mem_cons])

/-! ### C4 -/

theorem annotatePano_range (ids : List ℕ) :
    ∀ k : ℕ,
      List.zipWith (fun id r => PanoRes.mk r.payload (some id) (some (panoFileName id)))
          ids ((List.range' k ids.length).map fun i => PanoRes.mk i none none)
        = (ids.enumFrom k).map fun p => PanoRes.mk p.1 (some p.2) (some (panoFileName p.2)) := by
  induction ids with
  | nil => intro k; rfl
  | cons id t ih =>
    intro k
    rw [List.length_cons, List.range'_succ, List.map_cons, List.zipWith_cons_cons,
      List.enumFrom, List.map_cons, ih (k + 1)]

/-- The annotation loop fills each panoptic result with its target's
image id and formatted file name, positionally. -/
theorem annotatePano_spec (ids : List ℕ) :
    annotatePano ids ((List.range ids.length).map fun i => PanoRes.mk i none none)
      = ids.enum.map fun p => PanoRes.mk p.1 (some p.2) (some (panoFileName p.2)) := by
  rw [annotatePano, List.range_eq_range', annotatePano_range ids 0,
    List.drop_eq_nil_of_le (by rw [List.length_map, List.length_range']), List.append_nil]
  rfl

/-- Counterexample to C4 as stated: with `panoptic` present but `segm`
absent, the batch body stops with an UnboundLocalError on
`target_sizes` (engine.py line 165 reads a name only line 158 assigns),
so no annotated results are ever fed to the panoptic accumulator. -/
theorem c4_counterexample :
    evalBatch ⟨true, false, true⟩ [] ⟨[17], [("class_error", Flt.num 0)]⟩
      = ([.metricUpdate [("loss", Flt.num 0), ("class_error_unscaled", Flt.num 0)],
          .metricUpdate [("class_error", Flt.num 0)], .bboxPost,
          .cocoUpdate [(17, 0)]],
         some (.unboundLocal "target_sizes")) := by
  decide

/-- C4 amended: for every postprocessors mapping in which `panoptic`
and `segm` are both present (alongside `bbox`), a successful batch runs
the panoptic postprocessor and feeds the accumulator the per-image
results, each annotated with its integer image id and the 12-digit
zero-padded `.png` file name; with `segm` absent the batch instead
raises UnboundLocalError before reaching the accumulator. -/
theorem c4_panoptic_feed (weight_dict : Dict ℚ) (pp : PostProc) (b : EvalBatch)
    (ce : Flt) (hb : pp.hasBbox = true) (hs : pp.hasSegm = true)
    (hpn : pp.hasPanoptic = true)
    (hce : lookup (reduce_dict b.lossDict) "class_error" = some ce) :
    (evalBatch pp weight_dict b).2 = none
    ∧ EvalEvent.panoPost ∈ (evalBatch pp weight_dict b).1
    ∧ EvalEvent.panoUpdate (b.imageIds.enum.map fun p =>
        PanoRes.mk p.1 (some p.2) (some (panoFileName p.2)))
      ∈ (evalBatch pp weight_dict b).1 := by
  refine ⟨?_, ?_, ?_⟩ <;>
    simp [evalBatch, hce, hb, hs, hpn, annotatePano_spec]

/-- Witness for the amended C4 on a one-image batch with id 17. -/
theorem c4_panoptic_feed_witness :
    (evalBatch ⟨true, true, true⟩ [] ⟨[17], [("class_error", Flt.num 0)]⟩).2 = none :=
  (c4_panoptic_feed [] ⟨true, true, true⟩ ⟨[17], [("class_error", Flt.num 0)]⟩
    (Flt.num 0) rfl rfl rfl (by decide)).1

/-! ### Metric-logger lemmas -/

theorem updateMany_cons (lg : MLogger) (p : String × Flt) (t : Dict Flt) :
    updateMany lg (p :: t) = updateMany (updOne lg p.1 p.2) t := rfl

theorem lookup_updOne_self (lg : MLogger) (k : String) (v : Flt) :
    lookup (updOne lg k v) k
      = some (match lookup lg k with
          | none => ⟨Flt.add (.num 0) v, 1⟩
          | some m => ⟨m.total.add v, m.count + 1⟩) := by
  induction lg with
  | nil => simp [updOne, lookup]
  | cons p rest ih =>
    obtain ⟨k0, m⟩ := p
    by_cases hk : k0 = k
    · subst hk
      simp [updOne, lookup_cons]
    · simp [updOne, hk, lookup_cons, ih]

theorem lookup_updOne_ne (lg : MLogger) (k : String) (v : Flt) (k0 : String)
    (h : k0 ≠ k) : lookup (updOne lg k v) k0 = lookup lg k0 := by
  induction lg with
  | nil =>
    rw [show updOne [] k v = [(k, ⟨Flt.add (.num 0) v, 1⟩)] from rfl]
    rw [lookup_cons, if_neg (Ne.symm h)]
  | cons p rest ih =>
    obtain ⟨k1, m⟩ := p
    by_cases hk : k1 = k
    · subst hk
      simp [updOne, lookup_cons, Ne.symm h]
    · simp only [updOne, hk, if_false]
      rw [lookup_cons, lookup_cons, ih]

theorem lookup_updateMany_not_mem (es : Dict Flt) :
    ∀ (lg : MLogger) (k0 : String), k0 ∉ keysOf es →
      lookup (updateMany lg es) k0 = lookup lg k0 := by
  induction es with
  | nil => intro lg k0 _; rfl
  | cons p t ih =>
    intro lg k0 h
    simp only [keysOf, List.map_cons, List.mem_cons, not_or] at h
    rw [updateMany_cons, ih _ k0 (by simpa [keysOf] using h.2),
      lookup_updOne_ne _ _ _ _ h.1]

theorem mem_updOne_pos_or (lg : MLogger) (k : String) (v : Flt) :
    ∀ p ∈ updOne lg k v, 0 < p.2.count ∨ p ∈ lg := by
  induction lg with
  | nil =>
    intro p hp
    rw [show updOne [] k v = [(k, ⟨Flt.add (.num 0) v, 1⟩)] from rfl,
      List.mem_singleton] at hp
    subst hp
    exact Or.inl Nat.one_pos
  | cons q rest ih =>
    obtain ⟨k0, m⟩ := q
    intro p hp
    by_cases hk : k0 = k
    · simp only [updOne, hk, if_true] at hp
      rcases List.mem_cons.mp hp with rfl | hp0
      · exact Or.inl (Nat.succ_pos _)
      · exact Or.inr (List.mem_cons_of_mem _ hp0)
    · simp only [updOne, hk, if_false] at hp
      rcases List.mem_cons.mp hp with rfl | hp0
      · exact Or.inr (List.mem_cons_self _ _)
      · rcases ih p hp0 with h1 | h1
        · exact Or.inl h1
        · exact Or.inr (List.mem_cons_of_mem _ h1)

theorem mem_updateMany_pos_or (es : Dict Flt) :
    ∀ (lg : MLogger) (p : String × Meter), p ∈ updateMany lg es →
      0 < p.2.count ∨ p ∈ lg := by
  induction es with
  | nil => intro lg p hp; exact Or.inr hp
  | cons q t ih =>
    intro lg p hp
    rw [updateMany_cons] at hp
    rcases ih _ p hp with h1 | h1
    · exact Or.inl h1
    · exact mem_updOne_pos_or lg q.1 q.2 p h1

theorem mem_groupsFold_pos_or (groups : List (Dict Flt)) :
    ∀ (lg : MLogger) (p : String × Meter), p ∈ groups.foldl updateMany lg →
      0 < p.2.count ∨ p ∈ lg := by
  induction groups with
  | nil => intro lg p hp; exact Or.inr hp
  | cons g t ih =>
    intro lg p hp
    rw [List.foldl_cons] at hp
    rcases ih _ p hp with h1 | h1
    · exact Or.inl h1
    · exact mem_updateMany_pos_or g lg p h1

theorem count_le_updOne (lg : MLogger) (k : String) (v : Flt) (k0 : String)
    (m : Meter) (h : lookup lg k0 = some m) :
    ∃ m2, lookup (updOne lg k v) k0 = some m2 ∧ m.count ≤ m2.count := by
  by_cases hk : k0 = k
  · subst hk
    rw [lookup_updOne_self, h]
    exact ⟨_, rfl, Nat.le_succ _⟩
  · rw [lookup_updOne_ne _ _ _ _ hk]
    exact ⟨m, h, le_refl _⟩

theorem count_le_updateMany (es : Dict Flt) :
    ∀ (lg : MLogger) (k0 : String) (m : Meter), lookup lg k0 = some m →
      ∃ m2, lookup (updateMany lg es) k0 = some m2 ∧ m.count ≤ m2.count := by
  induction es with
  | nil => intro lg k0 m h; exact ⟨m, h, le_refl _⟩
  | cons q t ih =>
    intro lg k0 m h
    obtain ⟨m1, h1, hle1⟩ := count_le_updOne lg q.1 q.2 k0 m h
    obtain ⟨m2, h2, hle2⟩ := ih (updOne lg q.1 q.2) k0 m1 h1
    exact ⟨m2, by rw [updateMany_cons]; exact h2, le_trans hle1 hle2⟩

theorem count_le_groupsFold (groups : List (Dict Flt)) :
    ∀ (lg : MLogger) (k0 : String) (m : Meter), lookup lg k0 = some m →
      ∃ m2, lookup (groups.foldl updateMany lg) k0 = some m2 ∧ m.count ≤ m2.count := by
  induction groups with
  | nil => intro lg k0 m h; exact ⟨m, h, le_refl _⟩
  | cons g t ih =>
    intro lg k0 m h
    obtain ⟨m1, h1, hle1⟩ := count_le_updateMany g lg k0 m h
    obtain ⟨m2, h2, hle2⟩ := ih (updateMany lg g) k0 m1 h1
    exact ⟨m2, by rw [List.foldl_cons]; exact h2, le_trans hle1 hle2⟩

theorem count_pos_updOne_self (lg : MLogger) (k : String) (v : Flt) :
    ∃ m2, lookup (updOne lg k v) k = some m2 ∧ 0 < m2.count := by
  rw [lookup_updOne_self]
  cases lookup lg k with
  | none => exact ⟨_, rfl, Nat.one_pos⟩
  | some m => exact ⟨_, rfl, Nat.succ_pos _⟩

theorem count_pos_updateMany (es : Dict Flt) :
    ∀ (lg : MLogger) (k0 : String), k0 ∈ keysOf es →
      ∃ m2, lookup (updateMany lg es) k0 = some m2 ∧ 0 < m2.count := by
  induction es with
  | nil => intro lg k0 h; simp [keysOf] at h
  | cons q t ih =>
    intro lg k0 hk0
    rw [updateMany_cons]
    by_cases hmem : k0 ∈ keysOf t
    · exact ih _ k0 hmem
    · have hq : k0 = q.1 := by
        simp only [keysOf, List.map_cons, List.mem_cons] at hk0
        rcases hk0 with h1 | h1
        · exact h1
        · exact absurd h1 hmem
      subst hq
      obtain ⟨m1, h1, hpos1⟩ := count_pos_updOne_self lg q.1 q.2
      obtain ⟨m2, h2, hle⟩ := count_le_updateMany t (updOne lg q.1 q.2) q.1 m1 h1
      exact ⟨m2, h2, lt_of_lt_of_le hpos1 hle⟩

theorem count_pos_groupsFold (groups : List (Dict Flt)) :
    ∀ (lg : MLogger) (k0 : String) (es : Dict Flt), es ∈ groups → k0 ∈ keysOf es →
      ∃ m2, lookup (groups.foldl updateMany lg) k0 = some m2 ∧ 0 < m2.count := by
  induction groups with
  | nil => intro lg k0 es h _; simp at h
  | cons g t ih =>
    intro lg k0 es hes hk0
    rw [List.foldl_cons]
    rcases List.mem_cons.mp hes with rfl | hes0
    · by_cases hmem : ∃ es2 ∈ t, k0 ∈ keysOf es2
      · obtain ⟨es2, hes2, hk2⟩ := hmem
        exact ih _ k0 es2 hes2 hk2
      · obtain ⟨m1, h1, hpos1⟩ := count_pos_updateMany es lg k0 hk0
        obtain ⟨m2, h2, hle⟩ := count_le_groupsFold t (updateMany lg es) k0 m1 h1
        exact ⟨m2, h2, lt_of_lt_of_le hpos1 hle⟩
    · exact ih _ k0 es hes0 hk0

theorem mem_keysOf_updOne (lg : MLogger) (k : String) (v : Flt) :
    ∀ k0 ∈ keysOf (updOne lg k v), k0 ∈ keysOf lg ∨ k0 = k := by
  induction lg with
  | nil =>
    intro k0 h
    rw [show updOne [] k v = [(k, ⟨Flt.add (.num 0) v, 1⟩)] from rfl] at h
    simp only [keysOf, List.map_cons, List.map_nil, List.mem_singleton] at h
    exact Or.inr h
  | cons q rest ih =>
    obtain ⟨k1, m⟩ := q
    intro k0 h
    by_cases hk : k1 = k
    · simp only [updOne, hk, if_true] at h
      exact Or.inl (by simpa [keysOf, hk] using h)
    · simp only [updOne, hk, if_false, keysOf, List.map_cons, List.mem_cons] at h
      rcases h with rfl | h0
      · exact Or.inl (by simp [keysOf])
      · rcases ih k0 h0 with h1 | h1
        · exact Or.inl (by simp [keysOf]; exact Or.inr (by simpa [keysOf] using h1))
        · exact Or.inr h1

theorem mem_keysOf_updateMany (es : Dict Flt) :
    ∀ (lg : MLogger), ∀ k0 ∈ keysOf (updateMany lg es),
      k0 ∈ keysOf lg ∨ k0 ∈ keysOf es := by
  induction es with
  | nil => intro lg k0 h; exact Or.inl h
  | cons q t ih =>
    intro lg k0 h
    rw [updateMany_cons] at h
    rcases ih _ k0 h with h1 | h1
    · rcases mem_keysOf_updOne lg q.1 q.2 k0 h1 with h2 | h2
      · exact Or.inl h2
      · exact Or.inr (by rw [h2]; exact List.mem_cons_self _ _)
    · exact Or.inr (List.mem_cons_of_mem _ h1)

theorem mem_keysOf_groupsFold (groups : List (Dict Flt)) :
    ∀ (lg : MLogger), ∀ k0 ∈ keysOf (groups.foldl updateMany lg),
      k0 ∈ keysOf lg ∨ ∃ es ∈ groups, k0 ∈ keysOf es := by
  induction groups with
  | nil => intro lg k0 h; exact Or.inl h
  | cons g t ih =>
    intro lg k0 h
    rw [List.foldl_cons] at h
    rcases ih _ k0 h with h1 | h1
    · rcases mem_keysOf_updateMany g lg k0 h1 with h2 | h2
      · exact Or.inl h2
      · exact Or.inr ⟨g, List.mem_cons_self _ _, h2⟩
    · obtain ⟨es, hes, hk⟩ := h1
      exact Or.inr ⟨es, List.mem_cons_of_mem _ hes, hk⟩

theorem keysOf_updOne_cases (lg : MLogger) (k : String) (v : Flt) :
    keysOf (updOne lg k v) = keysOf lg
      ∨ (keysOf (updOne lg k v) = keysOf lg ++ [k] ∧ k ∉ keysOf lg) := by
  induction lg with
  | nil =>
    refine Or.inr ⟨?_, by simp [keysOf]⟩
    rfl
  | cons q rest ih =>
    obtain ⟨k1, m⟩ := q
    by_cases hk : k1 = k
    · exact Or.inl (by simp [updOne, hk, keysOf])
    · rcases ih with h1 | ⟨h1, h2⟩
      · exact Or.inl (by simp [updOne, hk, keysOf]; exact h1)
      · refine Or.inr ⟨?_, ?_⟩
        · simp only [updOne, hk, if_false, keysOf, List.map_cons, List.cons_append]
          rw [show keysOf (updOne rest k v) = List.map Prod.fst (updOne rest k v) from rfl] at h1
          rw [h1]
          rfl
        · simp only [keysOf, List.map_cons, List.mem_cons, not_or]
          exact ⟨fun he => hk he.symm, h2⟩

theorem nodup_keysOf_updOne (lg : MLogger) (k : String) (v : Flt)
    (h : (keysOf lg).Nodup) : (keysOf (updOne lg k v)).Nodup := by
  rcases keysOf_updOne_cases lg k v with h1 | ⟨h1, h2⟩
  · rw [h1]; exact h
  · rw [h1]
    rw [List.nodup_append]
    exact ⟨h, List.nodup_singleton k, by simpa [List.disjoint_singleton] using h2⟩

theorem nodup_keysOf_updateMany (es : Dict Flt) :
    ∀ (lg : MLogger), (keysOf lg).Nodup → (keysOf (updateMany lg es)).Nodup := by
  induction es with
  | nil => intro lg h; exact h
  | cons q t ih =>
    intro lg h
    rw [updateMany_cons]
    exact ih _ (nodup_keysOf_updOne lg q.1 q.2 h)

theorem nodup_keysOf_groupsFold (groups : List (Dict Flt)) :
    ∀ (lg : MLogger), (keysOf lg).Nodup → (keysOf (groups.foldl updateMany lg)).Nodup := by
  induction groups with
  | nil => intro lg h; exact h
  | cons g t ih =>
    intro lg h
    rw [List.foldl_cons]
    exact ih _ (nodup_keysOf_updateMany g lg h)

theorem lookup_map_snd {α β : Type} (f : α → β) (d : Dict α) (k : String) :
    lookup (d.map fun p => (p.1, f p.2)) k = (lookup d k).map f := by
  induction d with
  | nil => rfl
  | cons p t ih =>
    obtain ⟨k0, v⟩ := p
    by_cases hk : k0 = k
    · simp [lookup_cons, hk]
    · simp only [List.map_cons]
      rw [lookup_cons, lookup_cons, if_neg hk, if_neg hk, ih]

/-! ### Train-epoch lemmas -/

theorem append_unscaled_ne (k t : String) (ht : t.length < 9) :
    k ++ "_unscaled" ≠ t := by
  intro he
  have hlen := congrArg String.length he
  rw [String.length_append] at hlen
  have h9 : ("_unscaled" : String).length = 9 := by decide
  omega

theorem losses_tensor_of_scaled_tensor (ld : Dict Flt) (wd : Dict ℚ) (v : Flt)
    (h : losses_reduced_scaled (reduce_dict ld) wd = .tensor v) :
    ∃ lv, losses ld wd = .tensor lv := by
  have hsc : loss_dict_reduced_scaled (reduce_dict ld) wd ≠ [] := by
    intro he
    rw [losses_reduced_scaled, he] at h
    exact PySum.noConfusion h
  have hkeys : ((keysOf ld).filter fun k => hasKey wd k) ≠ [] := by
    intro he
    apply hsc
    have h2 : keysOf (loss_dict_reduced_scaled (reduce_dict ld) wd) = [] := by
      rw [keysOf_scaled]
      exact he
    exact List.map_eq_nil_iff.mp h2
  obtain ⟨k, hk⟩ := List.exists_mem_of_ne_nil _ hkeys
  have hkl : k ∈ keysOf ld := (List.mem_filter.mp hk).1
  have hkw : hasKey wd k = true := (List.mem_filter.mp hk).2
  obtain ⟨v0, hv0⟩ := Option.isSome_iff_exists.mp (lookup_isSome_of_mem hkl)
  obtain ⟨w, hw⟩ := Option.isSome_iff_exists.mp hkw
  have hmem : Flt.mul v0 (Flt.num w) ∈ ((keysOf ld).filterMap fun k0 =>
      match lookup ld k0, lookup wd k0 with
      | some v1, some w1 => some (Flt.mul v1 (Flt.num w1))
      | _, _ => none) := by
    rw [List.mem_filterMap]
    exact ⟨k, hkl, by rw [hv0, hw]⟩
  rcases hterms : ((keysOf ld).filterMap fun k0 =>
      match lookup ld k0, lookup wd k0 with
      | some v1, some w1 => some (Flt.mul v1 (Flt.num w1))
      | _, _ => none) with _ | ⟨t, ts⟩
  · rw [hterms] at hmem; simp at hmem
  · exact ⟨ts.foldl Flt.add t, by rw [losses, hterms]; rfl⟩

/-- A good training batch completes with an optimizer step, and its
logged metric updates are exactly the three updates of lines 105-107. -/
theorem trainBatch_good_spec (b : Dict Flt) (wd : Dict ℚ) (max_norm lr : ℚ)
    (hg : goodTrainBatch b wd = true) :
    (trainBatch b wd max_norm lr).2 = .stepped
    ∧ (trainBatch b wd max_norm lr).1.filterMap updatesOf = trainUpdates b wd lr := by
  rw [goodTrainBatch, Bool.and_eq_true] at hg
  obtain ⟨h1, h2⟩ := hg
  rcases hscr : losses_reduced_scaled (reduce_dict b) wd with _ | v
  · rw [hscr] at h1
    exact absurd h1 (by simp)
  · rw [hscr] at h1
    have h1f : v.isFinite = true := by simpa using h1
    obtain ⟨ce, hce⟩ := Option.isSome_iff_exists.mp h2
    obtain ⟨lv, hlv⟩ := losses_tensor_of_scaled_tensor b wd v hscr
    constructor
    · simp [trainBatch, hscr, h1f, hlv, hce]
    · by_cases hmn : 0 < max_norm <;>
        simp [trainBatch, hscr, h1f, hlv, hce, hmn, updatesOf, trainUpdates,
          scaledSumVal, PySum.val]

/-- Under good batches the training loop runs every batch, concatenates
the traces, and ends with the logger obtained by folding each batch's
updates. -/
theorem runTrainBatches_good (wd : Dict ℚ) (max_norm lr : ℚ) :
    ∀ (batches : List (Dict Flt)), (∀ b ∈ batches, goodTrainBatch b wd = true) →
      ∀ lg, runTrainBatches wd max_norm lr batches lg
        = (batches.flatMap fun b => (trainBatch b wd max_norm lr).1,
           .ok (batches.foldl (fun l b => (trainUpdates b wd lr).foldl updateMany l) lg)) := by
  intro batches
  induction batches with
  | nil => intro _ lg; rfl
  | cons b bs ih =>
    intro h lg
    have hb := h b (List.mem_cons_self b bs)
    obtain ⟨hstep, hupd⟩ := trainBatch_good_spec b wd max_norm lr hb
    have happ : applyTrainEvents lg (trainBatch b wd max_norm lr).1
        = (trainUpdates b wd lr).foldl updateMany lg := by
      rw [applyTrainEvents, hupd]
    simp only [runTrainBatches, hstep, happ,
      ih (fun b2 hb2 => h b2 (List.mem_cons_of_mem b hb2))]
    simp [List.flatMap_cons]

theorem foldl_updateMany_flatMap {α : Type} (g : α → List (Dict Flt)) :
    ∀ (batches : List α) (lg : MLogger),
      (batches.flatMap g).foldl updateMany lg
        = batches.foldl (fun l b => (g b).foldl updateMany l) lg := by
  intro batches
  induction batches with
  | nil => intro lg; rfl
  | cons b bs ih =>
    intro lg
    rw [List.flatMap_cons, List.foldl_append, List.foldl_cons, ih]

theorem keysOf_append {α : Type} (d1 d2 : Dict α) :
    keysOf (d1 ++ d2) = keysOf d1 ++ keysOf d2 := List.map_append _ d1 d2

theorem updateMany_append (lg : MLogger) (es1 es2 : Dict Flt) :
    updateMany lg (es1 ++ es2) = updateMany (updateMany lg es1) es2 := by
  rw [updateMany, updateMany, updateMany, List.foldl_append]

theorem updateMany_pair (lg : MLogger) (k : String) (v : Flt) :
    updateMany lg [(k, v)] = updOne lg k v := rfl

theorem not_mem_keysOf_scaled (b : Dict Flt) (wd : Dict ℚ) (t : String)
    (hnot : t ∉ keysOf b) :
    t ∉ keysOf (loss_dict_reduced_scaled (reduce_dict b) wd) := fun hmem =>
  hnot ((mem_keysOf_scaled (reduce_dict b) wd t).mp hmem).1

theorem not_mem_keysOf_unscaled (b : Dict Flt) (t : String) (hlen : t.length < 9) :
    t ∉ keysOf (loss_dict_reduced_unscaled (reduce_dict b)) := by
  rw [keysOf_unscaled]
  intro h1
  obtain ⟨k0, _, hk0⟩ := List.mem_map.mp h1
  exact append_unscaled_ne k0 t hlen hk0

theorem lookup_loss_batch_step (b : Dict Flt) (wd : Dict ℚ) (lr : ℚ) (lg : MLogger)
    (hloss : "loss" ∉ keysOf b) :
    lookup ((trainUpdates b wd lr).foldl updateMany lg) "loss"
      = some (match lookup lg "loss" with
          | none => ⟨Flt.add (.num 0) (scaledSumVal b wd), 1⟩
          | some m => ⟨m.total.add (scaledSumVal b wd), m.count + 1⟩) := by
  have hsc := not_mem_keysOf_scaled b wd "loss" hloss
  have hun := not_mem_keysOf_unscaled b "loss" (by decide)
  have h3 : "loss" ∉ keysOf ([("lr", Flt.num lr)] : Dict Flt) := by simp [keysOf]
  have h2 : "loss" ∉ keysOf
      ([("class_error", (lookup (reduce_dict b) "class_error").getD Flt.nan)] : Dict Flt) := by
    simp [keysOf]
  simp only [trainUpdates, List.foldl_cons, List.foldl_nil]
  rw [lookup_updateMany_not_mem _ _ _ h3, lookup_updateMany_not_mem _ _ _ h2,
    updateMany_append, lookup_updateMany_not_mem _ _ _ hun,
    updateMany_cons, lookup_updateMany_not_mem _ _ _ hsc, lookup_updOne_self]

theorem lookup_lr_batch_step (b : Dict Flt) (wd : Dict ℚ) (lr : ℚ) (lg : MLogger)
    (hlr : "lr" ∉ keysOf b) :
    lookup ((trainUpdates b wd lr).foldl updateMany lg) "lr"
      = some (match lookup lg "lr" with
          | none => ⟨Flt.add (.num 0) (.num lr), 1⟩
          | some m => ⟨m.total.add (.num lr), m.count + 1⟩) := by
  have hsc := not_mem_keysOf_scaled b wd "lr" hlr
  have hun := not_mem_keysOf_unscaled b "lr" (by decide)
  have h2 : "lr" ∉ keysOf
      ([("class_error", (lookup (reduce_dict b) "class_error").getD Flt.nan)] : Dict Flt) := by
    simp [keysOf]
  simp only [trainUpdates, List.foldl_cons, List.foldl_nil]
  rw [updateMany_pair, lookup_updOne_self, lookup_updateMany_not_mem _ _ _ h2,
    updateMany_append, lookup_updateMany_not_mem _ _ _ hun,
    updateMany_cons, lookup_updateMany_not_mem _ _ _ hsc,
    lookup_updOne_ne _ _ _ _ (by simp)]

theorem lookup_loss_after_batches (wd : Dict ℚ) (lr : ℚ) :
    ∀ (batches : List (Dict Flt)), (∀ b ∈ batches, "loss" ∉ keysOf b) →
      ∀ (lg : MLogger) (a : Flt) (n : ℕ), lookup lg "loss" = some ⟨a, n⟩ →
        lookup (batches.foldl (fun l b => (trainUpdates b wd lr).foldl updateMany l) lg)
            "loss"
          = some ⟨(batches.map fun b => scaledSumVal b wd).foldl Flt.add a,
              n + batches.length⟩ := by
  intro batches
  induction batches with
  | nil =>
    intro _ lg a n h
    simpa using h
  | cons b bs ih =>
    intro h lg a n hl
    rw [List.foldl_cons]
    have hstep := lookup_loss_batch_step b wd lr lg (h b (List.mem_cons_self b bs))
    rw [hl] at hstep
    have hrec := ih (fun b2 hb2 => h b2 (List.mem_cons_of_mem b hb2))
      ((trainUpdates b wd lr).foldl updateMany lg) (a.add (scaledSumVal b wd)) (n + 1)
      hstep
    rw [hrec, List.map_cons, List.foldl_cons, List.length_cons]
    have hn : n + 1 + bs.length = n + (bs.length + 1) := by omega
    rw [hn]

theorem lookup_loss_epoch (wd : Dict ℚ) (lr : ℚ) (batches : List (Dict Flt))
    (hne : batches ≠ []) (h : ∀ b ∈ batches, "loss" ∉ keysOf b) :
    lookup (batches.foldl (fun l b => (trainUpdates b wd lr).foldl updateMany l)
        trainLogger0) "loss"
      = some ⟨sumFlt (batches.map fun b => scaledSumVal b wd), batches.length⟩ := by
  cases batches with
  | nil => exact absurd rfl hne
  | cons b bs =>
    rw [List.foldl_cons]
    have hstep := lookup_loss_batch_step b wd lr trainLogger0
      (h b (List.mem_cons_self b bs))
    rw [show lookup trainLogger0 "loss" = none from rfl] at hstep
    have hrec := lookup_loss_after_batches wd lr bs
      (fun b2 hb2 => h b2 (List.mem_cons_of_mem b hb2))
      ((trainUpdates b wd lr).foldl updateMany trainLogger0)
      (Flt.add (.num 0) (scaledSumVal b wd)) 1 hstep
    rw [hrec, sumFlt, List.map_cons, List.foldl_cons, List.length_cons]
    have hn : 1 + bs.length = bs.length + 1 := by omega
    rw [hn]

theorem lookup_lr_after_batches (wd : Dict ℚ) (lr : ℚ) :
    ∀ (batches : List (Dict Flt)), (∀ b ∈ batches, "lr" ∉ keysOf b) →
      ∀ (lg : MLogger) (a : ℚ) (n : ℕ), lookup lg "lr" = some ⟨.num a, n⟩ →
        lookup (batches.foldl (fun l b => (trainUpdates b wd lr).foldl updateMany l) lg)
            "lr"
          = some ⟨.num (a + (batches.length : ℚ) * lr), n + batches.length⟩ := by
  intro batches
  induction batches with
  | nil =>
    intro _ lg a n h
    simpa using h
  | cons b bs ih =>
    intro h lg a n hl
    rw [List.foldl_cons]
    have hstep := lookup_lr_batch_step b wd lr lg (h b (List.mem_cons_self b bs))
    rw [hl] at hstep
    have hrec := ih (fun b2 hb2 => h b2 (List.mem_cons_of_mem b hb2))
      ((trainUpdates b wd lr).foldl updateMany lg) (a + lr) (n + 1) hstep
    rw [hrec]
    simp only [Option.some_inj, Meter.mk.injEq, Flt.num.injEq, List.length_cons]
    constructor
    · push_cast
      ring
    · omega

theorem lookup_lr_epoch (wd : Dict ℚ) (lr : ℚ) (batches : List (Dict Flt))
    (hne : batches ≠ []) (h : ∀ b ∈ batches, "lr" ∉ keysOf b) :
    lookup (batches.foldl (fun l b => (trainUpdates b wd lr).foldl updateMany l)
        trainLogger0) "lr"
      = some ⟨.num ((batches.length : ℚ) * lr), batches.length⟩ := by
  cases batches with
  | nil => exact absurd rfl hne
  | cons b bs =>
    rw [List.foldl_cons]
    have hstep := lookup_lr_batch_step b wd lr trainLogger0
      (h b (List.mem_cons_self b bs))
    rw [show lookup trainLogger0 "lr" = some ⟨.num 0, 0⟩ from rfl] at hstep
    have hrec := lookup_lr_after_batches wd lr bs
      (fun b2 hb2 => h b2 (List.mem_cons_of_mem b hb2))
      ((trainUpdates b wd lr).foldl updateMany trainLogger0) (0 + lr) 1 hstep
    rw [hrec]
    simp only [Option.some_inj, Meter.mk.injEq, Flt.num.injEq, List.length_cons]
    constructor
    · push_cast
      ring
    · omega

theorem counts_pos_train_epoch (wd : Dict ℚ) (lr : ℚ) (batches : List (Dict Flt))
    (hne : batches ≠ []) :
    ∀ p ∈ (batches.flatMap fun b => trainUpdates b wd lr).foldl updateMany trainLogger0,
      p.2.count ≠ 0 := by
  intro p hp
  rcases mem_groupsFold_pos_or (batches.flatMap fun b => trainUpdates b wd lr)
    trainLogger0 p hp with hpos | hmem
  · omega
  · cases batches with
    | nil => exact absurd rfl hne
    | cons b1 bs =>
      have hlrE : ([("lr", Flt.num lr)] : Dict Flt)
          ∈ (b1 :: bs).flatMap fun b => trainUpdates b wd lr :=
        List.mem_flatMap.mpr ⟨b1, List.mem_cons_self _ _, by simp [trainUpdates]⟩
      have hceE : ([("class_error", (lookup (reduce_dict b1) "class_error").getD Flt.nan)]
            : Dict Flt)
          ∈ (b1 :: bs).flatMap fun b => trainUpdates b wd lr :=
        List.mem_flatMap.mpr ⟨b1, List.mem_cons_self _ _, by simp [trainUpdates]⟩
      obtain ⟨mlr, hmlr, hmlrpos⟩ := count_pos_groupsFold
        ((b1 :: bs).flatMap fun b => trainUpdates b wd lr) trainLogger0 "lr" _
        hlrE (by simp [keysOf])
      obtain ⟨mce, hmce, hmcepos⟩ := count_pos_groupsFold
        ((b1 :: bs).flatMap fun b => trainUpdates b wd lr) trainLogger0 "class_error" _
        hceE (by simp [keysOf])
      have hnd := nodup_keysOf_groupsFold
        ((b1 :: bs).flatMap fun b => trainUpdates b wd lr) trainLogger0 (by decide)
      have hlook := lookup_eq_of_mem hnd hp
      rcases List.mem_cons.mp hmem with rfl | hmem2
      · rw [hlook] at hmlr
        have : mlr = (⟨.num 0, 0⟩ : Meter) := (Option.some_inj.mp hmlr).symm
        rw [this] at hmlrpos
        exact absurd hmlrpos (by decide)
      · rcases List.mem_cons.mp hmem2 with rfl | hmem3
        · rw [hlook] at hmce
          have : mce = (⟨.num 0, 0⟩ : Meter) := (Option.some_inj.mp hmce).symm
          rw [this] at hmcepos
          exact absurd hmcepos (by decide)
        · simp at hmem3

theorem statsOf_ok_of_pos (lg : MLogger) (h : ∀ p ∈ lg, p.2.count ≠ 0) :
    statsOf lg = .ok (lg.map fun p => (p.1, p.2.globalAvg)) := by
  rw [statsOf, if_pos]
  exact List.all_eq_true.mpr fun p hp => decide_eq_true (h p hp)

/-! ### C8 -/

/-- C8: under well-formed batches, `train_one_epoch` runs every batch,
synchronizes the aggregator and returns exactly the per-meter global
averages of the logger obtained by folding each batch's three updates
(total loss together with every scaled and unscaled reduced term, then
the reduced classification error, then the learning rate); in
particular the returned `loss` entry is the whole-epoch average of the
per-batch loss values and the returned `lr` entry is the (constant)
learning rate. -/
theorem c8_train_epoch_aggregation (wd : Dict ℚ) (max_norm lr : ℚ)
    (batches : List (Dict Flt)) (hne : batches ≠ [])
    (hgood : ∀ b ∈ batches, goodTrainBatch b wd = true)
    (hloss : ∀ b ∈ batches, "loss" ∉ keysOf b)
    (hlr : ∀ b ∈ batches, "lr" ∉ keysOf b) :
    train_one_epoch wd max_norm lr batches
      = ((batches.flatMap fun b => (trainBatch b wd max_norm lr).1) ++ [.syncMetrics],
         .finished (((batches.flatMap fun b => trainUpdates b wd lr).foldl updateMany
             trainLogger0).map fun p => (p.1, p.2.globalAvg)))
    ∧ (∀ b ∈ batches, (trainBatch b wd max_norm lr).1.filterMap updatesOf
          = trainUpdates b wd lr)
    ∧ lookup (((batches.flatMap fun b => trainUpdates b wd lr).foldl updateMany
          trainLogger0).map fun p => (p.1, p.2.globalAvg)) "loss"
        = some ((sumFlt (batches.map fun b => scaledSumVal b wd)).divNat batches.length)
    ∧ lookup (((batches.flatMap fun b => trainUpdates b wd lr).foldl updateMany
          trainLogger0).map fun p => (p.1, p.2.globalAvg)) "lr"
        = some (.num lr) := by
  have hcounts := counts_pos_train_epoch wd lr batches hne
  have hfold := foldl_updateMany_flatMap (fun b => trainUpdates b wd lr) batches
    trainLogger0
  refine ⟨?_, fun b hb => (trainBatch_good_spec b wd max_norm lr (hgood b hb)).2,
    ?_, ?_⟩
  · have hcounts2 : ∀ p ∈ batches.foldl
        (fun l b => (trainUpdates b wd lr).foldl updateMany l) trainLogger0,
        p.2.count ≠ 0 := hfold ▸ hcounts
    simp only [train_one_epoch,
      runTrainBatches_good wd max_norm lr batches hgood trainLogger0, syncLogger,
      statsOf_ok_of_pos _ hcounts2]
    rw [← hfold]
  · rw [lookup_map_snd Meter.globalAvg, hfold,
      lookup_loss_epoch wd lr batches hne hloss, Option.map_some']
    rfl
  · rw [lookup_map_snd Meter.globalAvg, hfold,
      lookup_lr_epoch wd lr batches hne hlr, Option.map_some']
    cases batches with
    | nil => exact absurd rfl hne
    | cons b bs =>
      simp only [List.length_cons, Meter.globalAvg, Flt.divNat, Option.some_inj]
      have hcast : ((bs.length + 1 : ℕ) : ℚ) ≠ 0 := by positivity
      rw [Flt.num.injEq]
      rw [mul_comm, mul_div_assoc, div_self hcast, mul_one]

/-- Witness for C8 on a one-batch epoch with learning rate 2. -/
theorem c8_train_epoch_aggregation_witness :
    lookup ((([[("loss_ce", Flt.num 2), ("class_error", Flt.num 0)]].flatMap
        fun b => trainUpdates b [("loss_ce", (1 : ℚ))] 2).foldl updateMany
        trainLogger0).map fun p => (p.1, p.2.globalAvg)) "lr" = some (.num 2) :=
  (c8_train_epoch_aggregation [("loss_ce", (1 : ℚ))] 0 2
    [[("loss_ce", Flt.num 2), ("class_error", Flt.num 0)]]
    (List.cons_ne_nil _ _) (by decide) (by decide) (by decide)).2.2.2

/-! ### Eval-epoch lemmas -/

/-- The batch body of `evaluate` under a bbox-only postprocessors
mapping, written out: two metric updates, the bbox postprocessor run and
the detection-accumulator update, ending without error. -/
theorem evalBatch_bbox_spec (wd : Dict ℚ) (b : EvalBatch) (ce : Flt)
    (hce : lookup (reduce_dict b.lossDict) "class_error" = some ce) :
    evalBatch ⟨true, false, false⟩ wd b
      = ([.metricUpdate (("loss", scaledSumVal b.lossDict wd)
            :: loss_dict_reduced_scaled (reduce_dict b.lossDict) wd
            ++ loss_dict_reduced_unscaled (reduce_dict b.lossDict)),
          .metricUpdate [("class_error", ce)], .bboxPost,
          .cocoUpdate (b.imageIds.zip (List.range b.imageIds.length))], none) := by
  simp [evalBatch, hce, scaledSumVal, losses_reduced_scaled]

theorem evalBatch_bbox_good (wd : Dict ℚ) (b : EvalBatch)
    (hg : goodEvalBatch b = true) :
    (evalBatch ⟨true, false, false⟩ wd b).2 = none
    ∧ ∀ lg, applyEvalEvents lg (evalBatch ⟨true, false, false⟩ wd b).1
        = (evalUpdates b.lossDict wd).foldl updateMany lg := by
  rw [goodEvalBatch] at hg
  obtain ⟨ce, hce⟩ := Option.isSome_iff_exists.mp hg
  rw [evalBatch_bbox_spec wd b ce hce]
  refine ⟨rfl, fun lg => ?_⟩
  simp [applyEvalEvents, evalUpdates, hce, scaledSumVal, losses_reduced_scaled]

theorem runEvalBatches_bbox (wd : Dict ℚ) :
    ∀ (batches : List EvalBatch), (∀ b ∈ batches, goodEvalBatch b = true) →
      ∀ lg, runEvalBatches ⟨true, false, false⟩ wd batches lg
        = (batches.flatMap fun b => (evalBatch ⟨true, false, false⟩ wd b).1,
           .ok (batches.foldl
             (fun l b => (evalUpdates b.lossDict wd).foldl updateMany l) lg)) := by
  intro batches
  induction batches with
  | nil => intro _ lg; rfl
  | cons b bs ih =>
    intro h lg
    obtain ⟨hnone, happ⟩ := evalBatch_bbox_good wd b (h b (List.mem_cons_self b bs))
    simp only [runEvalBatches, hnone, happ lg,
      ih (fun b2 hb2 => h b2 (List.mem_cons_of_mem b hb2))]
    simp [List.flatMap_cons]

theorem counts_pos_eval_epoch (wd : Dict ℚ) (batches : List EvalBatch)
    (hne : batches ≠ []) :
    ∀ p ∈ (batches.flatMap fun b => evalUpdates b.lossDict wd).foldl updateMany
        evalLogger0, p.2.count ≠ 0 := by
  intro p hp
  rcases mem_groupsFold_pos_or (batches.flatMap fun b => evalUpdates b.lossDict wd)
    evalLogger0 p hp with hpos | hmem
  · omega
  · cases batches with
    | nil => exact absurd rfl hne
    | cons b1 bs =>
      have hceE : ([("class_error",
            (lookup (reduce_dict b1.lossDict) "class_error").getD Flt.nan)] : Dict Flt)
          ∈ (b1 :: bs).flatMap fun b => evalUpdates b.lossDict wd :=
        List.mem_flatMap.mpr ⟨b1, List.mem_cons_self _ _, by simp [evalUpdates]⟩
      obtain ⟨mce, hmce, hmcepos⟩ := count_pos_groupsFold
        ((b1 :: bs).flatMap fun b => evalUpdates b.lossDict wd) evalLogger0
        "class_error" _ hceE (by simp [keysOf])
      have hnd := nodup_keysOf_groupsFold
        ((b1 :: bs).flatMap fun b => evalUpdates b.lossDict wd) evalLogger0 (by decide)
      have hlook := lookup_eq_of_mem hnd hp
      rcases List.mem_cons.mp hmem with rfl | hmem2
      · rw [hlook] at hmce
        have : mce = (⟨.num 0, 0⟩ : Meter) := (Option.some_inj.mp hmce).symm
        rw [this] at hmcepos
        exact absurd hmcepos (by decide)
      · simp at hmem2

theorem keysOf_map_avg (d : MLogger) :
    keysOf (d.map fun p => (p.1, StatVal.meterAvg p.2.globalAvg)) = keysOf d := by
  simp [keysOf, List.map_map, Function.comp]

/-- No reserved stats key can be a meter name of the eval logger. -/
theorem reserved_not_meter_name (wd : Dict ℚ) (batches : List EvalBatch) (r : String)
    (h1 : r ≠ "loss") (h2 : r ≠ "class_error")
    (hres : ∀ b ∈ batches, ∀ k ∈ keysOf b.lossDict, k ≠ r ∧ (k ++ "_unscaled") ≠ r) :
    r ∉ keysOf ((batches.flatMap fun b => evalUpdates b.lossDict wd).foldl updateMany
        evalLogger0) := by
  intro hr
  rcases mem_keysOf_groupsFold _ evalLogger0 r hr with h | ⟨es, hes, hkes⟩
  · rw [show keysOf evalLogger0 = ["class_error"] from rfl, List.mem_singleton] at h
    exact h2 h
  · obtain ⟨b, hb, hesb⟩ := List.mem_flatMap.mp hes
    rw [evalUpdates] at hesb
    rcases List.mem_cons.mp hesb with rfl | hesb2
    · rw [show keysOf (("loss", scaledSumVal b.lossDict wd)
          :: loss_dict_reduced_scaled (reduce_dict b.lossDict) wd
          ++ loss_dict_reduced_unscaled (reduce_dict b.lossDict))
          = "loss" :: keysOf (loss_dict_reduced_scaled (reduce_dict b.lossDict) wd
            ++ loss_dict_reduced_unscaled (reduce_dict b.lossDict)) from rfl,
        List.mem_cons] at hkes
      rcases hkes with rfl | hkes2
      · exact h1 rfl
      · rw [keysOf_append] at hkes2
        rcases List.mem_append.mp hkes2 with h3 | h3
        · have hmem := ((mem_keysOf_scaled (reduce_dict b.lossDict) wd r).mp h3).1
          exact (hres b hb r hmem).1 rfl
        · rw [keysOf_unscaled] at h3
          obtain ⟨k0, hk0, hk0e⟩ := List.mem_map.mp h3
          exact (hres b hb k0 hk0).2 hk0e
    · rcases List.mem_cons.mp hesb2 with rfl | hesb3
      · rw [show keysOf [("class_error",
            (lookup (reduce_dict b.lossDict) "class_error").getD Flt.nan)]
            = ["class_error"] from rfl, List.mem_singleton] at hkes
        exact h2 hkes
      · simp at hesb3

/-! ### C5 -/

/-- C5: with a bbox-only postprocessors mapping, `evaluate` never
constructs the panoptic accumulator (no construction event appears in
the trace) and the returned stats mapping is the per-meter averages
plus `coco_eval_bbox` alone — it contains none of `PQ_all`, `PQ_th`,
`PQ_st` and no `coco_eval_masks`. -/
theorem c5_bbox_only_stats (wd : Dict ℚ) (batches : List EvalBatch)
    (hne : batches ≠ [])
    (hgood : ∀ b ∈ batches, goodEvalBatch b = true)
    (hres : ∀ b ∈ batches, ∀ k ∈ keysOf b.lossDict,
      k ∉ reservedStatKeys ∧ (k ++ "_unscaled") ∉ reservedStatKeys) :
    EvalEvent.panopticConstruct ∉ (evaluate ⟨true, false, false⟩ wd batches).1
    ∧ (evaluate ⟨true, false, false⟩ wd batches).2
        = .ok ((((batches.flatMap fun b => evalUpdates b.lossDict wd).foldl updateMany
              evalLogger0).map fun p => (p.1, StatVal.meterAvg p.2.globalAvg))
            ++ [("coco_eval_bbox", StatVal.cocoStats "bbox")])
    ∧ ∀ r ∈ reservedStatKeys,
        r ∉ keysOf ((((batches.flatMap fun b => evalUpdates b.lossDict wd).foldl
              updateMany evalLogger0).map
                fun p => (p.1, StatVal.meterAvg p.2.globalAvg))
            ++ [("coco_eval_bbox", StatVal.cocoStats "bbox")]) := by
  have hcounts := counts_pos_eval_epoch wd batches hne
  have hfold := foldl_updateMany_flatMap (fun b => evalUpdates b.lossDict wd) batches
    evalLogger0
  have hcounts2 : ∀ p ∈ batches.foldl
      (fun l b => (evalUpdates b.lossDict wd).foldl updateMany l) evalLogger0,
      p.2.count ≠ 0 := hfold ▸ hcounts
  refine ⟨?_, ?_, ?_⟩
  · simp only [evaluate, runEvalBatches_bbox wd batches hgood evalLogger0, syncLogger,
      statsOf_ok_of_pos _ hcounts2]
    intro hmem
    simp only [List.mem_append, List.mem_flatMap] at hmem
    rcases hmem with (hmem | ⟨b, hb, hmem⟩) | hmem
    · simp at hmem
    · have hg2 : hasKey (reduce_dict b.lossDict) "class_error" = true := hgood b hb
      obtain ⟨ce, hce⟩ := Option.isSome_iff_exists.mp hg2
      rw [evalBatch_bbox_spec wd b ce hce] at hmem
      simp at hmem
    · simp at hmem
  · simp only [evaluate, runEvalBatches_bbox wd batches hgood evalLogger0, syncLogger,
      statsOf_ok_of_pos _ hcounts2]
    rw [← hfold]
    simp [List.map_map, Function.comp]
  · intro r hr
    rw [keysOf_append, keysOf_map_avg]
    intro hmem
    have hres2 : ∀ b ∈ batches, ∀ k ∈ keysOf b.lossDict,
        k ≠ r ∧ (k ++ "_unscaled") ≠ r := by
      intro b hb k hk
      exact ⟨fun he => (hres b hb k hk).1 (he ▸ hr),
        fun he => (hres b hb k hk).2 (he ▸ hr)⟩
    have hrs : r = "PQ_all" ∨ r = "PQ_th" ∨ r = "PQ_st" ∨ r = "coco_eval_masks" := by
      simpa [reservedStatKeys] using hr
    have hne1 : r ≠ "loss" := by
      rcases hrs with rfl | rfl | rfl | rfl <;> decide
    have hne2 : r ≠ "class_error" := by
      rcases hrs with rfl | rfl | rfl | rfl <;> decide
    have hne3 : r ≠ "coco_eval_bbox" := by
      rcases hrs with rfl | rfl | rfl | rfl <;> decide
    rcases List.mem_append.mp hmem with h3 | h3
    · exact reserved_not_meter_name wd batches r hne1 hne2 hres2 h3
    · rw [show keysOf [("coco_eval_bbox", StatVal.cocoStats "bbox")]
          = ["coco_eval_bbox"] from rfl, List.mem_singleton] at h3
      exact hne3 h3

/-- Witness for C5 on a one-batch evaluation. -/
theorem c5_bbox_only_stats_witness :
    EvalEvent.panopticConstruct
      ∉ (evaluate ⟨true, false, false⟩ [("loss_ce", (1 : ℚ))]
          [⟨[17], [("loss_ce", Flt.num 2), ("class_error", Flt.num 0)]⟩]).1 :=
  (c5_bbox_only_stats [("loss_ce", (1 : ℚ))]
    [⟨[17], [("loss_ce", Flt.num 2), ("class_error", Flt.num 0)]⟩]
    (List.cons_ne_nil _ _) (by decide) (by decide)).1

end Engine
